import Mathlib

/-!
Verification of the plugin-framework repository: the dependency resolver
(Loader.sortByDependencies in mod.ts), the lifecycle coordinator (Loader.start),
the richer Registry (mod.ts of the superseding revision), and the conditional
event bus (class Events of the same revision).

Conventions of the shallow embedding:

* JavaScript Map objects are modelled as insertion-ordered association lists
  (get returns the first binding; set overwrites in place or appends; delete
  removes the binding), matching Map's documented iteration semantics.
* Plugin lifecycle hooks are opaque caller code; the embedding records which
  hooks run (a trace) rather than interpreting their bodies.  Event-bus
  listeners may re-enter the bus by emitting further events, so a listener is
  modelled as an identity plus the list of event names it emits when invoked.
* Thrown JavaScript errors become Except/Option error values.
* Unbounded recursion (the resolver's depth-first visit, the bus's reentrant
  emit) is modelled with explicit fuel consumed once per nested call; the
  top-level resolver supplies fuel that is proved sufficient.
-/

deriving instance DecidableEq for Except

/-! ### Dependency resolver and two-phase coordinator (Loader, mod.ts) -/

namespace Loader

/-- A dependency declaration from types.ts: a name plus an optional flag. -/
structure Dependency where
  name : String
  optional : Bool
deriving DecidableEq

/-- A plugin descriptor as consumed by the Loader: its unique name, its
declared dependencies, and whether it supplies an afterInitAll hook.  The
bodies of the init and afterInitAll hooks are caller code outside the core;
the coordinator model below records the order in which they are invoked. -/
structure Plugin where
  name : String
  dependsOn : List Dependency
  hasAfterInitAll : Bool
deriving DecidableEq

/-- Errors thrown by sortByDependencies, plus a fuel marker for the embedding
of its unbounded recursion (proved unreachable for the fuel the resolver
supplies). -/
inductive SortErr where
  | circular (path : List String)
  | missing (plugin dep : String)
  | fuel
deriving DecidableEq

/-- The mutable state of sortByDependencies: the visited name set (as the
insertion-ordered list JavaScript's Set iterates), the output array, and the
console.warn lines emitted so far, each recorded as the (plugin name,
dependency name) pair of its message. -/
structure SortState where
  visited : List String
  sorted : List Plugin
  warns : List (String × String)
deriving DecidableEq

/-- The lookup plugins.find((x) => x.name === dep.name) used by the resolver. -/
def findPlugin (ps : List Plugin) (n : String) : Option Plugin :=
  ps.find? (fun x => x.name == n)

/-- The loop over p.dependsOn inside visit: a missing optional dependency is
skipped (with a warning), a missing required dependency throws, and a found
dependency is visited via visitF before the loop continues. -/
def depsFold (ps : List Plugin) (visitF : Plugin → SortState → Except SortErr SortState)
    (pname : String) : List Dependency → SortState → Except SortErr SortState
  | [], st => .ok st
  | d :: ds, st =>
    match findPlugin ps d.name with
    | none =>
      if d.optional then
        depsFold ps visitF pname ds
          { st with warns := st.warns ++ [(pname, d.name)] }
      else .error (.missing pname d.name)
    | some q =>
      match visitF q st with
      | .error e => .error e
      | .ok st' => depsFold ps visitF pname ds st'

/-- The recursive visit of sortByDependencies: skip plugins already visited,
throw on a name already on the current path stack (circular dependency),
resolve all dependencies with the stack extended by this plugin, then mark
the plugin visited and append it to the output.  Fuel bounds the recursion
depth and is consumed once per nested visit. -/
def visit (ps : List Plugin) : Nat → Plugin → List String → SortState → Except SortErr SortState
  | 0, p, stack, st =>
    if p.name ∈ st.visited then .ok st
    else if p.name ∈ stack then .error (.circular (stack ++ [p.name]))
    else .error .fuel
  | fuel' + 1, p, stack, st =>
    if p.name ∈ st.visited then .ok st
    else if p.name ∈ stack then .error (.circular (stack ++ [p.name]))
    else
      match depsFold ps (fun q st' => visit ps fuel' q (stack ++ [p.name]) st')
          p.name p.dependsOn st with
      | .error e => .error e
      | .ok st' => .ok ⟨st'.visited ++ [p.name], st'.sorted ++ [p], st'.warns⟩

/-- The top-level loop of sortByDependencies: visit every plugin with an empty
path stack. -/
def visitAll (ps : List Plugin) (fuel : Nat) : List Plugin → SortState → Except SortErr SortState
  | [], st => .ok st
  | p :: rest, st =>
    match visit ps fuel p [] st with
    | .error e => .error e
    | .ok st' => visitAll ps fuel rest st'

/-- Loader.sortByDependencies: depth-first traversal of every plugin, returning
the output array, a circular-dependency error, or a missing-dependency error.
The supplied fuel ps.length is proved sufficient below (visit_fuel_free). -/
def sortByDependencies (ps : List Plugin) : Except SortErr (List Plugin) :=
  match visitAll ps ps.length ps ⟨[], [], []⟩ with
  | .error e => .error e
  | .ok st => .ok st.sorted

/-- The console.warn lines of a completed sortByDependencies run: one
(plugin name, dependency name) pair per skipped absent optional dependency,
in emission order.  The log of a run that throws is not observed. -/
def sortWarns (ps : List Plugin) : List (String × String) :=
  match visitAll ps ps.length ps ⟨[], [], []⟩ with
  | .error _ => []
  | .ok st => st.warns

/-- One hook invocation performed by Loader.start: an init hook or an
afterInitAll hook of the named plugin. -/
inductive TraceEv where
  | init (n : String)
  | final (n : String)
deriving DecidableEq

/-- Loader.start: sort the registered plugins, run init on each in sorted
order, then run afterInitAll (when present) on each in reverse order.  The
result is the sequence of hook invocations, or the resolver's error. -/
def startTrace (ps : List Plugin) : Except SortErr (List TraceEv) :=
  match sortByDependencies ps with
  | .error e => .error e
  | .ok sorted =>
    .ok (sorted.map (fun p => TraceEv.init p.name) ++
      (sorted.reverse.filter (fun p => p.hasAfterInitAll)).map (fun p => TraceEv.final p.name))

/-- The names of a plugin list, in order. -/
def names (ps : List Plugin) : List String := ps.map (fun p => p.name)

/-- The dependency graph of a plugin set, on names: a is declared by some
plugin of the set and directly depends on b, and b is itself present. -/
def edgeP (ps : List Plugin) (a b : String) : Prop :=
  ∃ p ∈ ps, p.name = a ∧ ∃ d ∈ p.dependsOn, d.name = b ∧ b ∈ names ps

/-- Transitive dependency between names of the set. -/
def dependsPath (ps : List Plugin) (a b : String) : Prop :=
  Relation.TransGen (edgeP ps) a b

/-- Two names are independent when neither transitively depends on the other. -/
def independentP (ps : List Plugin) (a b : String) : Prop :=
  ¬ dependsPath ps a b ∧ ¬ dependsPath ps b a

/-- Acyclicity of the dependency graph: a rank function strictly decreasing
along every present dependency edge (equivalently, no directed cycle on the
finite graph). -/
def Acyclic (ps : List Plugin) : Prop :=
  ∃ rank : String → Nat, ∀ a b, edgeP ps a b → rank b < rank a

/-- Every required dependency declared by the set is present in the set. -/
def ReqPresent (ps : List Plugin) : Prop :=
  ∀ p ∈ ps, ∀ d ∈ p.dependsOn, d.optional = false → (findPlugin ps d.name).isSome

/-- Some plugin of the set declares a required dependency that is absent. -/
def HasAbsentReq (ps : List Plugin) : Prop :=
  ∃ p ∈ ps, ∃ d ∈ p.dependsOn, d.optional = false ∧ findPlugin ps d.name = none

/-- Every dependency of every output plugin that is present in the input set
appears strictly before its dependent in the output. -/
def topoOrdered (ps out : List Plugin) : Prop :=
  ∀ l₁ p l₂, out = l₁ ++ p :: l₂ → ∀ d ∈ p.dependsOn, ∀ q,
    findPlugin ps d.name = some q → q ∈ l₁

/-- Ties among independent plugins are broken by input iteration order: any
two plugins neither of which transitively depends on the other keep their
relative input order in the output. -/
def tieBreakStable (ps out : List Plugin) : Prop :=
  ∀ a b, a ∈ ps → b ∈ ps → independentP ps a.name b.name →
    List.indexOf a ps < List.indexOf b ps → List.indexOf a out < List.indexOf b out

/-- All present dependencies of p are already in the done set. -/
def depsDone (ps : List Plugin) (p : Plugin) (done : List String) : Prop :=
  ∀ d ∈ p.dependsOn, (findPlugin ps d.name).isSome → d.name ∈ done

/-- The output-so-far is dependency-ordered relative to an already-done
prefix of names. -/
def goodAux (ps : List Plugin) : List String → List Plugin → Prop
  | _, [] => True
  | done, p :: rest => depsDone ps p done ∧ goodAux ps (done ++ [p.name]) rest

/-- Invariant of the resolver state: the visited set is exactly the names of
the output in order, without duplicates; output plugins come from the input;
required dependencies of output plugins are present; and the output is
dependency-ordered. -/
structure StInv (ps : List Plugin) (st : SortState) : Prop where
  vis_eq : st.visited = names st.sorted
  nodup : st.visited.Nodup
  sub : ∀ p ∈ st.sorted, p ∈ ps
  reqOk : ∀ p ∈ st.sorted, ∀ d ∈ p.dependsOn, d.optional = false → (findPlugin ps d.name).isSome
  good : goodAux ps [] st.sorted
  warnOk : ∀ p ∈ st.sorted, ∀ d ∈ p.dependsOn, d.optional = true →
    findPlugin ps d.name = none → (p.name, d.name) ∈ st.warns

/-- Behaviour required of the visiting function threaded through depsFold:
on success it preserves the state invariant, only appends to the output,
leaves the visited plugin visited, and never marks a protected (on-stack)
name visited. -/
def VisitOk (ps : List Plugin) (F : Plugin → SortState → Except SortErr SortState)
    (protect : List String) : Prop :=
  ∀ q st st', q ∈ ps → StInv ps st → F q st = .ok st' →
    StInv ps st' ∧ (∃ tail, st'.sorted = st.sorted ++ tail) ∧ q.name ∈ st'.visited ∧
    (∀ n ∈ protect, n ∉ st.visited → n ∉ st'.visited) ∧
    (∀ w ∈ st.warns, w ∈ st'.warns)

/-- Input of the corrected tie-breaking example: Gamma depends on Beta, and
Alpha and Beta are mutually independent. -/
def exG : Plugin := ⟨"Gamma", [⟨"Beta", false⟩], false⟩

/-- Independent plugin Alpha of the tie-breaking example. -/
def exA : Plugin := ⟨"Alpha", [], false⟩

/-- Independent plugin Beta of the tie-breaking example. -/
def exB : Plugin := ⟨"Beta", [], false⟩

/-- The tie-breaking example input, Gamma first. -/
def exTie : List Plugin := [exG, exA, exB]

/-- A plugin set where one member requires an absent dependency but a cycle is
met first: A requires B, B requires A and then the absent X. -/
def exCyc : List Plugin :=
  [⟨"A", [⟨"B", false⟩], false⟩, ⟨"B", [⟨"A", false⟩, ⟨"X", false⟩], false⟩]

/-- The Config plugin of the end-to-end scenario: no dependencies. -/
def cfgPlugin : Plugin := ⟨"Config", [], true⟩

/-- The Database plugin of the end-to-end scenario: depends on Config. -/
def dbPlugin : Plugin := ⟨"Database", [⟨"Config", false⟩], true⟩

/-- The Api plugin of the end-to-end scenario: depends on Config and Database. -/
def apiPlugin : Plugin := ⟨"Api", [⟨"Config", false⟩, ⟨"Database", false⟩], true⟩

/-- A plugin whose only, required dependency is absent. -/
def exReq : List Plugin := [⟨"P", [⟨"X", false⟩], false⟩]

/-- A plugin whose only, optional dependency is absent. -/
def exOptQ : Plugin := ⟨"Q", [⟨"X", true⟩], true⟩

/-- The one-plugin set around exOptQ. -/
def exOpt : List Plugin := [exOptQ]

end Loader

/-! ### Registry of the superseding revision (mod.ts): registration and
initialization with lifecycle hooks -/

namespace Registry

/-- A plugin descriptor of the richer revision: a unique name and the
presence of the optional register and initialize hooks (the hook bodies are
caller code; the model records which hooks are invoked). -/
structure PluginR where
  name : String
  hasRegister : Bool
  hasInit : Bool
deriving DecidableEq

/-- A hook invocation performed by the Registry: a register hook (called
during registration of the named plugin) or an initialize hook. -/
inductive HookEv where
  | registerHook (n : String)
  | initHook (n : String)
deriving DecidableEq

/-- The registration loop of the Registry constructor: each plugin is checked
against the names already registered; a duplicate name throws, otherwise the
plugin is inserted and its register hook (when present) is invoked.  Returns
the registered names, the hook trace, and the duplicate name if any. -/
def registerAll : List PluginR → List String → List HookEv →
    List String × List HookEv × Option String
  | [], seen, tr => (seen, tr, none)
  | p :: rest, seen, tr =>
    if p.name ∈ seen then (seen, tr, some p.name)
    else registerAll rest (seen ++ [p.name])
      (tr ++ if p.hasRegister then [.registerHook p.name] else [])

/-- The Registry constructor run over a descriptor list: register every
plugin (aborting with the duplicate-name error if a name repeats), then — on
success only — invoke the initialize hook of every plugin that has one, in
insertion order.  Result: the hook trace and the duplicate name if the run
aborted. -/
def registryRun (ps : List PluginR) : List HookEv × Option String :=
  match registerAll ps [] [] with
  | (_, tr, some dup) => (tr, some dup)
  | (_, tr, none) =>
    (tr ++ ps.filterMap (fun p => if p.hasInit then some (.initHook p.name) else none), none)

/-- A duplicate-name input: two descriptors named dup, both with hooks. -/
def exDup : List PluginR := [⟨"dup", true, true⟩, ⟨"dup", true, true⟩]

end Registry

/-! ### Conditional event bus (class Events of the superseding revision) -/

/-- Bool-valued lexicographic comparison of character lists by code point,
the comparison JavaScript's default Array.prototype.sort applies to strings. -/
def charListLe : List Char → List Char → Bool
  | [], _ => true
  | _ :: _, [] => false
  | a :: as, b :: bs =>
    if a.toNat < b.toNat then true
    else if b.toNat < a.toNat then false
    else charListLe as bs

/-- Lexicographic string comparison, as used by JavaScript's default sort. -/
def strLe (a b : String) : Bool := charListLe a.toList b.toList

/-- Insert a string into an already sorted list. -/
def insertSorted (s : String) : List String → List String
  | [] => [s]
  | t :: ts => if strLe s t then s :: t :: ts else t :: insertSorted s ts

/-- Sort a list of strings lexicographically ([...events].sort() of
buildConditionalKey). -/
def sortStrings : List String → List String
  | [] => []
  | s :: ss => insertSorted s (sortStrings ss)

namespace Events

/-- A bus listener: an identity used to observe its invocations, plus the
event names it emits back into the bus, in order, each time it is invoked
(listener bodies are caller code; re-emission is their only bus-visible
effect). -/
structure Listener where
  lid : Nat
  emits : List String
deriving DecidableEq

/-- The ConditionType of the bus: single, any, or all. -/
inductive Cond where
  | single
  | any
  | all
deriving DecidableEq

/-- A stored conditional trigger: condition type, watched events, listener. -/
structure Trigger where
  cond : Cond
  events : List String
  listener : Listener
deriving DecidableEq

/-- Observable bus events: the debug line of an emission, the debug line of a
skipped re-emission, and a listener invocation. -/
inductive LogEv where
  | emitting (e : String)
  | skipped (e : String)
  | invoke (lid : Nat)
deriving DecidableEq

/-- The record the Events map stores per event name. -/
structure EventRec where
  listeners : List Listener
  fired : Bool
deriving DecidableEq

/-- The full bus state: the Events map (event name to record), the
conditionalTriggers map (key to trigger), the observable log, and a marker
set when the fuel bound of the embedding is exhausted. -/
structure Bus where
  events : List (String × EventRec)
  triggers : List (String × Trigger)
  log : List LogEv
  stuck : Bool
deriving DecidableEq

/-- Map.get on an insertion-ordered association list. -/
def mapGet {α : Type} (m : List (String × α)) (k : String) : Option α :=
  (m.find? (fun kv => kv.1 == k)).map (fun kv => kv.2)

/-- Map.set: overwrite the binding in place when the key exists, else append. -/
def mapSet {α : Type} (m : List (String × α)) (k : String) (v : α) :
    List (String × α) :=
  if (m.find? (fun kv => kv.1 == k)).isSome then
    m.map (fun kv => if kv.1 == k then (k, v) else kv)
  else m ++ [(k, v)]

/-- Map.delete: remove the binding of the key. -/
def mapDelete {α : Type} (m : List (String × α)) (k : String) : List (String × α) :=
  m.filter (fun kv => !(kv.1 == k))

/-- The string name of a condition type. -/
def condStr : Cond → String
  | .single => "single"
  | .any => "any"
  | .all => "all"

/-- buildConditionalKey: the condition type and the sorted event names joined
with a comma, the identity key of an any/all trigger. -/
def buildConditionalKey (condition : Cond) (events : List String) : String :=
  condStr condition ++ ":" ++ String.intercalate "," (sortStrings events)

/-- Whether the named event has fired (this.get(ev)?.fired, with a missing
record read as not fired). -/
def firedIn (st : Bus) (e : String) : Bool :=
  match mapGet st.events e with
  | some r => r.fired
  | none => false

/-- The shouldTrigger test of checkConditionalTriggers: every watched event
fired for all, some watched event fired for any; a single trigger is never
stored so its case is the switch's untouched false. -/
def evalCond (c : Cond) (evs : List String) (st : Bus) : Bool :=
  match c with
  | .all => evs.all (fun ev => firedIn st ev)
  | .any => evs.any (fun ev => firedIn st ev)
  | .single => false

/-- Run a listener body: each event it emits, in order, through the emitter
of the current fuel level. -/
def runEmits (emitL : String → Bus → Bus) : List String → Bus → Bus
  | [], st => st
  | e :: es, st => runEmits emitL es (emitL e st)

/-- Invoke a listener: record the invocation, then run its body. -/
def fireListener (emitL : String → Bus → Bus) (l : Listener) (st : Bus) : Bus :=
  runEmits emitL l.emits { st with log := st.log ++ [.invoke l.lid] }

/-- target.listeners.forEach((listener) => listener(...)): invoke each
listener of the event being emitted, in subscription order. -/
def runListeners (emitL : String → Bus → Bus) : List Listener → Bus → Bus
  | [], st => st
  | l :: ls, st => runListeners emitL ls (fireListener emitL l st)

/-- The body of checkConditionalTriggers over a snapshot of the trigger keys:
for each key still present, evaluate its condition against the current fired
set; when met, invoke the listener and then delete the trigger.  Iterating a
snapshot of the keys and re-checking membership models Map iteration under
deletions performed by reentrant listeners. -/
def checkKeys (emitL : String → Bus → Bus) : List String → Bus → Bus
  | [], st => st
  | k :: ks, st =>
    match mapGet st.triggers k with
    | none => checkKeys emitL ks st
    | some t =>
      if evalCond t.cond t.events st then
        let st1 := fireListener emitL t.listener st
        let st2 := { st1 with triggers := mapDelete st1.triggers k }
        checkKeys emitL ks st2
      else checkKeys emitL ks st

/-- Events.checkConditionalTriggers: walk the stored triggers, firing and
removing each whose condition is met. -/
def checkTriggers (emitL : String → Bus → Bus) (st : Bus) : Bus :=
  checkKeys emitL (st.triggers.map (fun kv => kv.1)) st

/-- Events.emit: if the event already fired, log the skip and return with no
further effect; otherwise log the emission, invoke every attached listener in
order, mark the event fired (after the listeners have run, spreading the
record captured before they ran), and re-evaluate the conditional triggers.
Fuel bounds the depth of reentrant emissions performed by listeners. -/
def emit : Nat → String → Bus → Bus
  | 0, _, st => { st with stuck := true }
  | fuel + 1, e, st =>
    let target := (mapGet st.events e).getD ⟨[], false⟩
    if target.fired then { st with log := st.log ++ [.skipped e] }
    else
      let st1 := { st with log := st.log ++ [.emitting e] }
      let st2 := runListeners (fun e' s => emit fuel e' s) target.listeners st1
      let st3 := { st2 with events := mapSet st2.events e ⟨target.listeners, true⟩ }
      checkTriggers (fun e' s => emit fuel e' s) st3

/-- The error Events.on throws when a single condition does not come with
exactly one event name. -/
inductive OnErr where
  | invalidSingle (events : List String)
deriving DecidableEq

/-- Events.on: a single condition with exactly one event name appends the
listener to that event's record; any other event count for single throws; an
any or all condition stores the trigger in the conditionalTriggers map under
its buildConditionalKey.  Either way the conditional triggers are then
re-checked against the already fired events before on returns. -/
def onTrigger (fuel : Nat) (condition : Cond) (evs : List String) (l : Listener)
    (st : Bus) : Except OnErr Bus :=
  match condition, evs with
  | .single, [e] =>
    let target := (mapGet st.events e).getD ⟨[], false⟩
    let st1 := { st with events := mapSet st.events e ⟨target.listeners ++ [l], target.fired⟩ }
    .ok (checkTriggers (fun e' s => emit fuel e' s) st1)
  | .single, bad => .error (.invalidSingle bad)
  | .any, _ =>
    .ok (checkTriggers (fun e' s => emit fuel e' s)
      { st with triggers := mapSet st.triggers (buildConditionalKey .any evs) ⟨.any, evs, l⟩ })
  | .all, _ =>
    .ok (checkTriggers (fun e' s => emit fuel e' s)
      { st with triggers := mapSet st.triggers (buildConditionalKey .all evs) ⟨.all, evs, l⟩ })

/-- A caller-visible bus operation: an emission or a subscription. -/
inductive BusOp where
  | emitEv (e : String)
  | subscribe (condition : Cond) (evs : List String) (l : Listener)
deriving DecidableEq

/-- Run one bus operation; a subscription that throws leaves the state
unchanged (on throws before mutating anything). -/
def runOp (fuel : Nat) (st : Bus) : BusOp → Bus
  | .emitEv e => emit fuel e st
  | .subscribe c evs l =>
    match onTrigger fuel c evs l st with
    | .ok st' => st'
    | .error _ => st

/-- Run a sequence of bus operations. -/
def runOps (fuel : Nat) : List BusOp → Bus → Bus
  | [], st => st
  | op :: ops, st => runOps fuel ops (runOp fuel st op)

/-- The lid of the listener an operation subscribes, if any. -/
def opLid : BusOp → Option Nat
  | .emitEv _ => none
  | .subscribe _ _ l => some l.lid

/-- The bus with no events, no triggers, and an empty log. -/
def emptyBus : Bus := ⟨[], [], [], false⟩

/-- Count the recorded invocations of a listener identity. -/
def countInv (lid : Nat) (st : Bus) : Nat :=
  st.log.count (.invoke lid)

/-- The fired set of the first state is contained in that of the second. -/
def subFired (st st' : Bus) : Prop := ∀ e, firedIn st e = true → firedIn st' e = true

/-- An emitter that only ever grows the fired set. -/
def MonoEmit (emitL : String → Bus → Bus) : Prop := ∀ e st, subFired st (emitL e st)

/-- An emitter that preserves an empty trigger map. -/
def KeepsET (emitL : String → Bus → Bus) : Prop :=
  ∀ e st, st.triggers = [] → (emitL e st).triggers = []

/-- A bus used as concrete input: one inert listener (identity 1) on x, one
pending any-trigger with an inert listener (identity 2). -/
def c2Bus : Bus :=
  ⟨[("x", ⟨[⟨1, []⟩], false⟩)], [("any:a", ⟨.any, ["a"], ⟨2, []⟩⟩)], [], false⟩

/-- The inert listener of the c2Bus example. -/
def c2L : Listener := ⟨1, []⟩

/-- A bus with a single listener on x whose body re-emits x. -/
def c3Bus : Bus := ⟨[("x", ⟨[⟨1, ["x"]⟩], false⟩)], [], [], false⟩

/-- The listener identity lid can never run: every event record that contains
a listener with this identity is already fired, and every stored trigger
holding it is an any-trigger over no events, whose condition is never met. -/
def SafeLid (lid : Nat) (st : Bus) : Prop :=
  (∀ kv ∈ st.events, (∀ l ∈ kv.2.listeners, l.lid ≠ lid) ∨ kv.2.fired = true) ∧
  (∀ kv ∈ st.triggers, kv.2.listener.lid = lid →
    kv.2.cond = Cond.any ∧ kv.2.events = [])

/-- An abstract emitter that preserves SafeLid and never logs an invocation
of the protected identity. -/
def SafeEmit (lid : Nat) (emitL : String → Bus → Bus) : Prop :=
  ∀ e st, SafeLid lid st →
    SafeLid lid (emitL e st) ∧ countInv lid (emitL e st) = countInv lid st

end Events

/-! ### Resolver lemmas -/

namespace Loader

theorem findPlugin_name {ps : List Plugin} {n : String} {q : Plugin}
    (h : findPlugin ps n = some q) : q.name = n := by
  have := List.find?_some h
  simpa using this

theorem findPlugin_mem {ps : List Plugin} {n : String} {q : Plugin}
    (h : findPlugin ps n = some q) : q ∈ ps :=
  List.mem_of_find?_eq_some h

theorem findPlugin_isSome_iff {ps : List Plugin} {n : String} :
    (findPlugin ps n).isSome ↔ n ∈ names ps := by
  rw [findPlugin, List.find?_isSome]
  simp [names]

theorem name_inj {ps : List Plugin} (hnd : (names ps).Nodup) {x y : Plugin}
    (hx : x ∈ ps) (hy : y ∈ ps) (h : x.name = y.name) : x = y :=
  List.inj_on_of_nodup_map hnd hx hy h

theorem findPlugin_self {ps : List Plugin} (hnd : (names ps).Nodup) {p : Plugin}
    (hp : p ∈ ps) : findPlugin ps p.name = some p := by
  induction ps with
  | nil => cases hp
  | cons x rest ih =>
    rcases List.mem_cons.mp hp with rfl | hp'
    · simp [findPlugin]
    · have hne : x.name ≠ p.name := by
        intro he
        have : p.name ∈ names rest := List.mem_map_of_mem _ hp'
        rw [← he] at this
        exact (List.nodup_cons.mp hnd).1 this
      have hrec : findPlugin rest p.name = some p :=
        ih (List.nodup_cons.mp hnd).2 hp'
      rw [findPlugin, List.find?_cons_of_neg _ (by simp [hne])]
      exact hrec

end Loader

namespace Loader

theorem names_append (l₁ l₂ : List Plugin) :
    names (l₁ ++ l₂) = names l₁ ++ names l₂ :=
  List.map_append _ _ _

theorem stinv_empty (ps : List Plugin) : StInv ps ⟨[], [], []⟩ :=
  ⟨rfl, List.nodup_nil, by simp, by simp, trivial, by simp⟩

/-- Growing the warning log (only ever by appending) preserves the state
invariant. -/
theorem stinv_warns {ps : List Plugin} {st : SortState} (h : StInv ps st)
    (W : List (String × String)) (hW : ∀ w ∈ st.warns, w ∈ W) :
    StInv ps ⟨st.visited, st.sorted, W⟩ :=
  ⟨h.vis_eq, h.nodup, h.sub, h.reqOk, h.good,
    fun p hp d hd ho hn => hW _ (h.warnOk p hp d hd ho hn)⟩

theorem stinv_vis_mono {ps : List Plugin} {st st' : SortState}
    (h : StInv ps st) (h' : StInv ps st')
    (hext : ∃ tail, st'.sorted = st.sorted ++ tail) :
    ∀ n ∈ st.visited, n ∈ st'.visited := by
  obtain ⟨tail, ht⟩ := hext
  intro n hn
  rw [h'.vis_eq, ht, names_append]
  rw [h.vis_eq] at hn
  exact List.mem_append_left _ hn

theorem goodAux_append {ps : List Plugin} :
    ∀ (l : List Plugin) (done : List String) (p : Plugin),
      goodAux ps done l → depsDone ps p (done ++ names l) → goodAux ps done (l ++ [p])
  | [], _, _, _, hd => ⟨by simpa [names] using hd, trivial⟩
  | x :: l, done, p, h, hd => by
    refine ⟨h.1, goodAux_append l (done ++ [x.name]) p h.2 ?_⟩
    have hassoc : done ++ names (x :: l) = (done ++ [x.name]) ++ names l := by
      simp [names]
    rwa [hassoc] at hd

theorem depsFold_ok {ps : List Plugin} {F : Plugin → SortState → Except SortErr SortState}
    {pname : String} {protect : List String} (hF : VisitOk ps F protect)
    (ds : List Dependency) :
    ∀ (st st' : SortState), StInv ps st → depsFold ps F pname ds st = .ok st' →
      StInv ps st' ∧ (∃ tail, st'.sorted = st.sorted ++ tail) ∧
      (∀ d ∈ ds, (findPlugin ps d.name).isSome → d.name ∈ st'.visited) ∧
      (∀ d ∈ ds, d.optional = false → (findPlugin ps d.name).isSome) ∧
      (∀ n ∈ protect, n ∉ st.visited → n ∉ st'.visited) ∧
      (∀ w ∈ st.warns, w ∈ st'.warns) ∧
      (∀ d ∈ ds, d.optional = true → findPlugin ps d.name = none →
        (pname, d.name) ∈ st'.warns) := by
  induction ds with
  | nil =>
    intro st st' hinv hok
    simp only [depsFold] at hok
    injection hok with h
    subst h
    exact ⟨hinv, ⟨[], by simp⟩, by simp, by simp, fun n _ h => h,
      fun w hw => hw, by simp⟩
  | cons d ds ih =>
    intro st st' hinv hok
    simp only [depsFold] at hok
    cases hfd : findPlugin ps d.name with
    | none =>
      rw [hfd] at hok
      by_cases hopt : d.optional
      · simp only [if_pos hopt] at hok
        have hinv₂ : StInv ps ⟨st.visited, st.sorted, st.warns ++ [(pname, d.name)]⟩ :=
          stinv_warns hinv _ (fun w hw => List.mem_append_left _ hw)
        obtain ⟨hinv', hext, hds, hreq, hprot, hwm, hwl⟩ := ih _ st' hinv₂ hok
        refine ⟨hinv', hext, ?_, ?_, hprot, ?_, ?_⟩
        · intro d' hd' hsome
          rcases List.mem_cons.mp hd' with rfl | hd''
          · rw [hfd] at hsome; simp at hsome
          · exact hds d' hd'' hsome
        · intro d' hd' hopt'
          rcases List.mem_cons.mp hd' with rfl | hd''
          · rw [hopt'] at hopt; simp at hopt
          · exact hreq d' hd'' hopt'
        · intro w hw
          exact hwm w (List.mem_append_left _ hw)
        · intro d' hd' hopt' hnone'
          rcases List.mem_cons.mp hd' with rfl | hd''
          · exact hwm _ (List.mem_append_right _ (by simp))
          · exact hwl d' hd'' hopt' hnone'
      · simp only [if_neg hopt] at hok
        simp at hok
    | some q =>
      rw [hfd] at hok
      dsimp only at hok
      cases hFq : F q st with
      | error e => rw [hFq] at hok; simp at hok
      | ok st₁ =>
        rw [hFq] at hok
        dsimp only at hok
        obtain ⟨hinv₁, hext₁, hqvis, hprot₁, hwm₁⟩ :=
          hF q st st₁ (findPlugin_mem hfd) hinv hFq
        obtain ⟨hinv', hext', hds, hreq, hprot', hwm', hwl'⟩ := ih st₁ st' hinv₁ hok
        refine ⟨hinv', ?_, ?_, ?_, ?_, ?_, ?_⟩
        · obtain ⟨t₁, ht₁⟩ := hext₁
          obtain ⟨t₂, ht₂⟩ := hext'
          exact ⟨t₁ ++ t₂, by rw [ht₂, ht₁, List.append_assoc]⟩
        · intro d' hd' hsome
          rcases List.mem_cons.mp hd' with rfl | hd''
          · have : q.name ∈ st'.visited := stinv_vis_mono hinv₁ hinv' hext' _ hqvis
            rwa [findPlugin_name hfd] at this
          · exact hds d' hd'' hsome
        · intro d' hd' hopt'
          rcases List.mem_cons.mp hd' with rfl | hd''
          · rw [hfd]; rfl
          · exact hreq d' hd'' hopt'
        · intro n hn hnv
          exact hprot' n hn (hprot₁ n hn hnv)
        · intro w hw
          exact hwm' w (hwm₁ w hw)
        · intro d' hd' hopt' hnone'
          rcases List.mem_cons.mp hd' with rfl | hd''
          · rw [hfd] at hnone'; simp at hnone'
          · exact hwl' d' hd'' hopt' hnone'

end Loader

namespace Loader

theorem visit_ok (ps : List Plugin) :
    ∀ (fuel : Nat) (stack : List String),
      VisitOk ps (fun q st => visit ps fuel q stack st) stack := by
  intro fuel
  induction fuel with
  | zero =>
    intro stack q st st' hq hinv hok
    simp only [visit] at hok
    by_cases hv : q.name ∈ st.visited
    · rw [if_pos hv] at hok
      injection hok with h
      subst h
      exact ⟨hinv, ⟨[], by simp⟩, hv, fun n _ h => h, fun w hw => hw⟩
    · rw [if_neg hv] at hok
      by_cases hs : q.name ∈ stack
      · rw [if_pos hs] at hok; simp at hok
      · rw [if_neg hs] at hok; simp at hok
  | succ fuel ih =>
    intro stack q st st' hq hinv hok
    simp only [visit] at hok
    by_cases hv : q.name ∈ st.visited
    · rw [if_pos hv] at hok
      injection hok with h
      subst h
      exact ⟨hinv, ⟨[], by simp⟩, hv, fun n _ h => h, fun w hw => hw⟩
    · rw [if_neg hv] at hok
      by_cases hs : q.name ∈ stack
      · rw [if_pos hs] at hok; simp at hok
      · rw [if_neg hs] at hok
        cases hd : depsFold ps (fun r st'' => visit ps fuel r (stack ++ [q.name]) st'')
            q.name q.dependsOn st with
        | error e => rw [hd] at hok; simp at hok
        | ok st₁ =>
          rw [hd] at hok
          dsimp only at hok
          injection hok with h
          subst h
          obtain ⟨hinv₁, ⟨t, ht⟩, hds, hreq, hprot, hwm, hwl⟩ :=
            depsFold_ok (ih (stack ++ [q.name])) q.dependsOn st st₁ hinv hd
          have hqstack' : q.name ∈ stack ++ [q.name] := by simp
          have hqnv₁ : q.name ∉ st₁.visited := hprot q.name hqstack' hv
          refine ⟨⟨?_, ?_, ?_, ?_, ?_, ?_⟩, ⟨t ++ [q], by simp [ht]⟩, by simp, ?_, ?_⟩
          · show st₁.visited ++ [q.name] = names (st₁.sorted ++ [q])
            rw [names_append, hinv₁.vis_eq]
            rfl
          · show (st₁.visited ++ [q.name]).Nodup
            rw [List.nodup_append]
            exact ⟨hinv₁.nodup, List.nodup_singleton _, by simpa using hqnv₁⟩
          · intro p hp
            rcases List.mem_append.mp hp with hp' | hp'
            · exact hinv₁.sub p hp'
            · rw [List.mem_singleton.mp hp']; exact hq
          · intro p hp
            rcases List.mem_append.mp hp with hp' | hp'
            · exact hinv₁.reqOk p hp'
            · rw [List.mem_singleton.mp hp']; exact hreq
          · show goodAux ps [] (st₁.sorted ++ [q])
            refine goodAux_append st₁.sorted [] q hinv₁.good ?_
            intro d hd' hsome
            have := hds d hd' hsome
            rw [hinv₁.vis_eq] at this
            simpa using this
          · intro p' hp' d hd' hopt' hnone'
            rcases List.mem_append.mp hp' with hp'' | hp''
            · exact hinv₁.warnOk p' hp'' d hd' hopt' hnone'
            · obtain rfl := List.mem_singleton.mp hp''
              exact hwl d hd' hopt' hnone'
          · intro n hn hnv
            have hnstack' : n ∈ stack ++ [q.name] := List.mem_append_left _ hn
            have : n ∉ st₁.visited := hprot n hnstack' hnv
            intro hmem
            rcases List.mem_append.mp hmem with h' | h'
            · exact this h'
            · rw [List.mem_singleton.mp h'] at hn
              exact hs hn
          · intro w hw
            exact hwm w hw

end Loader

namespace Loader

theorem visitAll_ok {ps : List Plugin} {fuel : Nat} :
    ∀ (l : List Plugin) (st st' : SortState), (∀ p ∈ l, p ∈ ps) → StInv ps st →
      visitAll ps fuel l st = .ok st' →
      StInv ps st' ∧ (∃ tail, st'.sorted = st.sorted ++ tail) ∧
      (∀ p ∈ l, p.name ∈ st'.visited) := by
  intro l
  induction l with
  | nil =>
    intro st st' _ hinv hok
    simp only [visitAll] at hok
    injection hok with h
    subst h
    exact ⟨hinv, ⟨[], by simp⟩, by simp⟩
  | cons p rest ih =>
    intro st st' hsub hinv hok
    simp only [visitAll] at hok
    cases hvp : visit ps fuel p [] st with
    | error e => rw [hvp] at hok; simp at hok
    | ok st₁ =>
      rw [hvp] at hok
      dsimp only at hok
      obtain ⟨hinv₁, hext₁, hpv, _, _⟩ :=
        visit_ok ps fuel [] p st st₁ (hsub p (by simp)) hinv hvp
      obtain ⟨hinv', hext', hrest⟩ := ih st₁ st' (fun r hr => hsub r (by simp [hr])) hinv₁ hok
      refine ⟨hinv', ?_, ?_⟩
      · obtain ⟨t₁, ht₁⟩ := hext₁
        obtain ⟨t₂, ht₂⟩ := hext'
        exact ⟨t₁ ++ t₂, by rw [ht₂, ht₁, List.append_assoc]⟩
      · intro r hr
        rcases List.mem_cons.mp hr with rfl | hr'
        · exact stinv_vis_mono hinv₁ hinv' hext' _ hpv
        · exact hrest r hr'

theorem sort_ok_inv {ps : List Plugin} {out : List Plugin}
    (h : sortByDependencies ps = .ok out) :
    ∃ st : SortState, st.sorted = out ∧ StInv ps st ∧ ∀ p ∈ ps, p.name ∈ st.visited := by
  rw [sortByDependencies] at h
  cases hva : visitAll ps ps.length ps ⟨[], [], []⟩ with
  | error e => rw [hva] at h; simp at h
  | ok st =>
    rw [hva] at h
    dsimp only at h
    injection h with h'
    obtain ⟨hinv, _, hvis⟩ := visitAll_ok ps ⟨[], [], []⟩ st (fun _ hp => hp) (stinv_empty ps) hva
    exact ⟨st, h', hinv, hvis⟩

end Loader

namespace Loader

theorem depsFold_prog {ps : List Plugin} {F : Plugin → SortState → Except SortErr SortState}
    {pname : String} {protect : List String} (hF : VisitOk ps F protect)
    (hprog : ∀ q st, q ∈ ps → edgeP ps pname q.name → StInv ps st →
      (∃ st', F q st = .ok st') ∨
      ((∃ a b, F q st = .error (.missing a b)) ∧ HasAbsentReq ps))
    (p : Plugin) (hp : p ∈ ps) (hpn : p.name = pname) :
    ∀ (ds : List Dependency), (∀ d ∈ ds, d ∈ p.dependsOn) →
      ∀ st, StInv ps st →
      (∃ st', depsFold ps F pname ds st = .ok st') ∨
      ((∃ a b, depsFold ps F pname ds st = .error (.missing a b)) ∧ HasAbsentReq ps) := by
  intro ds
  induction ds with
  | nil =>
    intro _ st _
    exact Or.inl ⟨st, rfl⟩
  | cons d ds ih =>
    intro hds st hinv
    simp only [depsFold]
    cases hfd : findPlugin ps d.name with
    | none =>
      dsimp only
      by_cases hopt : d.optional
      · rw [if_pos hopt]
        exact ih (fun d' hd' => hds d' (by simp [hd'])) _
          (stinv_warns hinv _ (fun w hw => List.mem_append_left _ hw))
      · rw [if_neg hopt]
        refine Or.inr ⟨⟨pname, d.name, rfl⟩, p, hp, d, hds d (by simp), ?_, hfd⟩
        simpa using hopt
    | some q =>
      have hedge : edgeP ps pname q.name :=
        ⟨p, hp, hpn, d, hds d (by simp), (findPlugin_name hfd).symm,
          List.mem_map_of_mem _ (findPlugin_mem hfd)⟩
      dsimp only
      rcases hprog q st (findPlugin_mem hfd) hedge hinv with ⟨st₁, hFq⟩ | ⟨⟨a, b, hFq⟩, habs⟩
      · rw [hFq]
        dsimp only
        have hinv₁ := (hF q st st₁ (findPlugin_mem hfd) hinv hFq).1
        exact ih (fun d' hd' => hds d' (by simp [hd'])) st₁ hinv₁
      · rw [hFq]
        exact Or.inr ⟨⟨a, b, rfl⟩, habs⟩

end Loader

namespace Loader

theorem stack_covers {ps : List Plugin} {stack : List String}
    (hnd : stack.Nodup)
    (hsubn : ∀ n ∈ stack, n ∈ names ps) (hlen : ps.length ≤ stack.length) :
    ∀ n ∈ names ps, n ∈ stack := by
  intro n hn
  have hsub : stack.toFinset ⊆ (names ps).toFinset := fun x hx =>
    List.mem_toFinset.mpr (hsubn x (List.mem_toFinset.mp hx))
  have hlen2 : (names ps).length = ps.length := by simp [names]
  have hcard : (names ps).toFinset.card ≤ stack.toFinset.card := by
    rw [List.toFinset_card_of_nodup hnd]
    calc (names ps).toFinset.card ≤ (names ps).length := List.toFinset_card_le _
      _ = ps.length := hlen2
      _ ≤ stack.length := hlen
  have heq : stack.toFinset = (names ps).toFinset :=
    Finset.eq_of_subset_of_card_le hsub hcard
  have : n ∈ stack.toFinset := heq ▸ List.mem_toFinset.mpr hn
  exact List.mem_toFinset.mp this

theorem visit_prog (ps : List Plugin) (rank : String → Nat)
    (hrank : ∀ a b, edgeP ps a b → rank b < rank a) :
    ∀ (fuel : Nat) (p : Plugin) (stack : List String) (st : SortState),
      p ∈ ps → StInv ps st → stack.Nodup → (∀ n ∈ stack, n ∈ names ps) →
      (∀ n ∈ stack, rank p.name < rank n) →
      ps.length ≤ fuel + stack.length →
      (∃ st', visit ps fuel p stack st = .ok st') ∨
      ((∃ a b, visit ps fuel p stack st = .error (.missing a b)) ∧ HasAbsentReq ps) := by
  intro fuel
  induction fuel with
  | zero =>
    intro p stack st hp hinv hnd hsubn hrk hfuel
    by_cases hv : p.name ∈ st.visited
    · exact Or.inl ⟨st, by simp only [visit]; rw [if_pos hv]⟩
    · exfalso
      have hpn : p.name ∈ stack :=
        stack_covers hnd hsubn (by simpa using hfuel)
          p.name (List.mem_map_of_mem _ hp)
      exact lt_irrefl _ (hrk p.name hpn)
  | succ fuel ih =>
    intro p stack st hp hinv hnd hsubn hrk hfuel
    by_cases hv : p.name ∈ st.visited
    · exact Or.inl ⟨st, by simp only [visit]; rw [if_pos hv]⟩
    · have hs : p.name ∉ stack := fun hmem => lt_irrefl _ (hrk p.name hmem)
      have hprog : ∀ q st', q ∈ ps → edgeP ps p.name q.name → StInv ps st' →
          (∃ st'', visit ps fuel q (stack ++ [p.name]) st' = .ok st'') ∨
          ((∃ a b, visit ps fuel q (stack ++ [p.name]) st' = .error (.missing a b)) ∧
            HasAbsentReq ps) := by
        intro q st' hq hedge hinv'
        refine ih q (stack ++ [p.name]) st' hq hinv' ?_ ?_ ?_ ?_
        · rw [List.nodup_append]
          exact ⟨hnd, List.nodup_singleton _, by simpa using hs⟩
        · intro n hn
          rcases List.mem_append.mp hn with h' | h'
          · exact hsubn n h'
          · rw [List.mem_singleton.mp h']
            exact List.mem_map_of_mem _ hp
        · intro n hn
          have hq_lt : rank q.name < rank p.name := hrank _ _ hedge
          rcases List.mem_append.mp hn with h' | h'
          · exact lt_trans hq_lt (hrk n h')
          · rw [List.mem_singleton.mp h']
            exact hq_lt
        · rw [List.length_append, List.length_singleton]
          omega
      have hres := depsFold_prog (visit_ok ps fuel (stack ++ [p.name])) hprog p hp rfl
        p.dependsOn (fun _ hd => hd) st hinv
      simp only [visit]
      rw [if_neg hv, if_neg hs]
      rcases hres with ⟨st₁, hds⟩ | ⟨⟨a, b, hds⟩, habs⟩
      · rw [hds]
        exact Or.inl ⟨_, rfl⟩
      · rw [hds]
        exact Or.inr ⟨⟨a, b, rfl⟩, habs⟩

end Loader

namespace Loader

theorem visitAll_prog (ps : List Plugin) (rank : String → Nat)
    (hrank : ∀ a b, edgeP ps a b → rank b < rank a) :
    ∀ (l : List Plugin) (st : SortState), (∀ p ∈ l, p ∈ ps) → StInv ps st →
      (∃ st', visitAll ps ps.length l st = .ok st') ∨
      ((∃ a b, visitAll ps ps.length l st = .error (.missing a b)) ∧ HasAbsentReq ps) := by
  intro l
  induction l with
  | nil =>
    intro st _ _
    exact Or.inl ⟨st, rfl⟩
  | cons p rest ih =>
    intro st hsub hinv
    simp only [visitAll]
    rcases visit_prog ps rank hrank ps.length p [] st (hsub p (by simp)) hinv
        List.nodup_nil (by simp) (by simp) (by simp) with ⟨st₁, hv⟩ | ⟨⟨a, b, hv⟩, habs⟩
    · rw [hv]
      dsimp only
      have hinv₁ := (visit_ok ps ps.length [] p st st₁ (hsub p (by simp)) hinv hv).1
      exact ih st₁ (fun r hr => hsub r (by simp [hr])) hinv₁
    · rw [hv]
      exact Or.inr ⟨⟨a, b, rfl⟩, habs⟩

theorem goodAux_split {ps : List Plugin} :
    ∀ (l₁ : List Plugin) (done : List String) (p : Plugin) (l₂ : List Plugin),
      goodAux ps done (l₁ ++ p :: l₂) → depsDone ps p (done ++ names l₁)
  | [], _, _, _, h => by simpa [names] using h.1
  | x :: l₁, done, p, l₂, h => by
    have hrec := goodAux_split l₁ (done ++ [x.name]) p l₂ h.2
    rwa [show (done ++ [x.name]) ++ names l₁ = done ++ names (x :: l₁) by simp [names]] at hrec

theorem sort_topoOrdered {ps out : List Plugin} (hnames : (names ps).Nodup)
    (h : sortByDependencies ps = .ok out) : topoOrdered ps out := by
  obtain ⟨st, hsorted, hinv, _⟩ := sort_ok_inv h
  intro l₁ p l₂ hsplit d hd q hq
  have hgood := hinv.good
  rw [hsorted, hsplit] at hgood
  have hdd := goodAux_split l₁ [] p l₂ hgood
  have hdn : d.name ∈ names l₁ := by
    simpa using hdd d hd (by rw [hq]; rfl)
  obtain ⟨q', hq'l, hq'n⟩ := List.mem_map.mp hdn
  have hq'ps : q' ∈ ps := by
    refine hinv.sub q' ?_
    rw [hsorted, hsplit]
    exact List.mem_append_left _ hq'l
  have hq'q : q' = q :=
    name_inj hnames hq'ps (findPlugin_mem hq) (hq'n.trans (findPlugin_name hq).symm)
  rwa [← hq'q]

theorem sort_perm {ps out : List Plugin} (hnames : (names ps).Nodup)
    (h : sortByDependencies ps = .ok out) : out.Perm ps := by
  obtain ⟨st, hsorted, hinv, hvis⟩ := sort_ok_inv h
  have hnodup_out : out.Nodup := by
    have hnd := hinv.nodup
    rw [hinv.vis_eq, hsorted] at hnd
    exact List.Nodup.of_map _ hnd
  have hnodup_ps : ps.Nodup := List.Nodup.of_map _ hnames
  rw [List.perm_ext_iff_of_nodup hnodup_out hnodup_ps]
  intro a
  constructor
  · intro ha
    exact hinv.sub a (hsorted ▸ ha)
  · intro ha
    have hvn : a.name ∈ st.visited := hvis a ha
    rw [hinv.vis_eq, hsorted] at hvn
    obtain ⟨b, hb, hbn⟩ := List.mem_map.mp hvn
    have hbps : b ∈ ps := hinv.sub b (hsorted ▸ hb)
    have hba : b = a := name_inj hnames hbps ha hbn
    rwa [← hba]

end Loader

namespace Loader

theorem sort_ok_reqPresent {ps out : List Plugin} (hnames : (names ps).Nodup)
    (h : sortByDependencies ps = .ok out) : ReqPresent ps := by
  have hperm := sort_perm hnames h
  obtain ⟨st, hsorted, hinv, _⟩ := sort_ok_inv h
  intro p hp d hd hopt
  have hpo : p ∈ out := hperm.mem_iff.mpr hp
  exact hinv.reqOk p (hsorted ▸ hpo) d hd hopt

theorem no_edge_acyclic {ps : List Plugin}
    (h : ∀ a b, ¬ edgeP ps a b) : Acyclic ps :=
  ⟨fun _ => 0, fun a b hab => absurd hab (h a b)⟩

theorem exReq_acyclic : Acyclic exReq := by
  refine no_edge_acyclic ?_
  rintro a b ⟨p, hp, _, d, hd, rfl, hb⟩
  simp only [exReq] at hp
  fin_cases hp
  simp only [List.mem_singleton] at hd
  subst hd
  exact absurd hb (by decide)

theorem exOpt_acyclic : Acyclic exOpt := by
  refine no_edge_acyclic ?_
  rintro a b ⟨p, hp, _, d, hd, rfl, hb⟩
  simp only [exOpt] at hp
  fin_cases hp
  simp only [exOptQ, List.mem_singleton] at hd
  subst hd
  exact absurd hb (by decide)

theorem scenario_acyclic : Acyclic [cfgPlugin, dbPlugin, apiPlugin] := by
  refine ⟨fun n => if n = "Config" then 0 else if n = "Database" then 1 else 2, ?_⟩
  rintro a b ⟨p, hp, rfl, d, hd, rfl, _⟩
  fin_cases hp
  · simp [cfgPlugin] at hd
  · simp only [dbPlugin] at hd
    fin_cases hd
    decide
  · simp only [apiPlugin] at hd
    fin_cases hd <;> decide

end Loader

/-- Claim C1 (amended): for every plugin set with distinct names whose
dependency graph is acyclic and whose required dependencies are all present,
sortByDependencies succeeds and returns a permutation of the input in which
every required and every present optional dependency appears strictly before
its dependent.  (The further tie-breaking clause of the claim is refuted by
c1_counterexample: a dependency pulled forward by an earlier dependent may
overtake an independent plugin that came earlier in the input.) -/
theorem c1_resolver_topological_order (ps : List Loader.Plugin)
    (hnames : (Loader.names ps).Nodup) (hacyc : Loader.Acyclic ps)
    (hreq : Loader.ReqPresent ps) :
    ∃ out, Loader.sortByDependencies ps = .ok out ∧ out.Perm ps ∧
      Loader.topoOrdered ps out := by
  obtain ⟨rank, hrank⟩ := hacyc
  rcases Loader.visitAll_prog ps rank hrank ps ⟨[], [], []⟩ (fun _ hp => hp)
      (Loader.stinv_empty ps) with ⟨st, hva⟩ | ⟨_, habs⟩
  · have hsort : Loader.sortByDependencies ps = .ok st.sorted := by
      simp only [Loader.sortByDependencies]
      rw [hva]
    exact ⟨st.sorted, hsort, Loader.sort_perm hnames hsort,
      Loader.sort_topoOrdered hnames hsort⟩
  · obtain ⟨p, hp, d, hd, hopt, hnone⟩ := habs
    have hsome := hreq p hp d hd hopt
    rw [hnone] at hsome
    simp at hsome

/-- Claim C1, tie-breaking clause, refuted: on the input Gamma (requiring
Beta), Alpha, Beta the resolver outputs Beta, Gamma, Alpha, so the mutually
independent plugins Alpha and Beta appear in the opposite of their input
order: ties among independent plugins are not broken by input iteration
order. -/
theorem c1_counterexample :
    Loader.sortByDependencies Loader.exTie = .ok [Loader.exB, Loader.exG, Loader.exA] ∧
    ¬ Loader.tieBreakStable Loader.exTie [Loader.exB, Loader.exG, Loader.exA] := by
  refine ⟨by decide, ?_⟩
  intro hstable
  have hnoA : ∀ c, ¬ Loader.edgeP Loader.exTie "Alpha" c := by
    rintro c ⟨p, hp, hname, d, hd, _, _⟩
    simp only [Loader.exTie] at hp
    fin_cases hp
    · exact absurd hname (by decide)
    · simp [Loader.exA] at hd
    · exact absurd hname (by decide)
  have hnoB : ∀ c, ¬ Loader.edgeP Loader.exTie "Beta" c := by
    rintro c ⟨p, hp, hname, d, hd, _, _⟩
    simp only [Loader.exTie] at hp
    fin_cases hp
    · exact absurd hname (by decide)
    · exact absurd hname (by decide)
    · simp [Loader.exB] at hd
  have hindep : Loader.independentP Loader.exTie Loader.exA.name Loader.exB.name := by
    constructor
    · intro hpath
      obtain ⟨c, hc, _⟩ := Relation.TransGen.head'_iff.mp hpath
      exact hnoA c hc
    · intro hpath
      obtain ⟨c, hc, _⟩ := Relation.TransGen.head'_iff.mp hpath
      exact hnoB c hc
  have hlt := hstable Loader.exA Loader.exB (by decide) (by decide) hindep (by decide)
  exact absurd hlt (by decide)

/-- Claim C1 witness: the three-plugin Config, Database, Api scenario
discharges the hypotheses of the amended resolver theorem. -/
theorem c1_resolver_topological_order_witness :
    (Loader.names [Loader.cfgPlugin, Loader.dbPlugin, Loader.apiPlugin]).Nodup ∧
    Loader.ReqPresent [Loader.cfgPlugin, Loader.dbPlugin, Loader.apiPlugin] ∧
    ∃ out, Loader.sortByDependencies [Loader.cfgPlugin, Loader.dbPlugin, Loader.apiPlugin]
        = .ok out ∧
      out.Perm [Loader.cfgPlugin, Loader.dbPlugin, Loader.apiPlugin] ∧
      Loader.topoOrdered [Loader.cfgPlugin, Loader.dbPlugin, Loader.apiPlugin] out :=
  ⟨by decide, by unfold Loader.ReqPresent; decide,
    c1_resolver_topological_order _ (by decide) Loader.scenario_acyclic
      (by unfold Loader.ReqPresent; decide)⟩

/-- Claim C7 (amended): in a plugin set with distinct names, a required
dependency absent from the set makes the resolver raise an error and start
initializes no plugin; when the dependency graph is additionally acyclic that
error is the missing-dependency error.  If instead every absent dependency is
optional (so ReqPresent holds) and the graph is acyclic, no error is raised,
every plugin — in particular the dependent — is still ordered and
initialized, and for each absent optional dependency the console.warn line
naming the plugin and the dependency is logged.  (The unconditional
missing-dependency-error claim is refuted by c7_counterexample, where a cycle
is reported first.) -/
theorem c7_missing_dependency (ps : List Loader.Plugin)
    (hnames : (Loader.names ps).Nodup) :
    (Loader.HasAbsentReq ps → ∃ e, Loader.sortByDependencies ps = .error e ∧
      Loader.startTrace ps = .error e ∧
      (Loader.Acyclic ps → ∃ a b, e = .missing a b)) ∧
    (Loader.Acyclic ps → Loader.ReqPresent ps → ∀ p ∈ ps,
      ∃ out tr, Loader.sortByDependencies ps = .ok out ∧ p ∈ out ∧
        Loader.startTrace ps = .ok tr ∧ Loader.TraceEv.init p.name ∈ tr ∧
        (∀ d ∈ p.dependsOn, d.optional = true → Loader.findPlugin ps d.name = none →
          (p.name, d.name) ∈ Loader.sortWarns ps)) := by
  constructor
  · intro habs
    cases hs : Loader.sortByDependencies ps with
    | ok out =>
      exfalso
      obtain ⟨p, hp, d, hd, hopt, hnone⟩ := habs
      have hsome := Loader.sort_ok_reqPresent hnames hs p hp d hd hopt
      rw [hnone] at hsome
      simp at hsome
    | error e =>
      refine ⟨e, rfl, ?_, ?_⟩
      · simp only [Loader.startTrace]
        rw [hs]
      · intro hacyc
        obtain ⟨rank, hrank⟩ := hacyc
        rcases Loader.visitAll_prog ps rank hrank ps ⟨[], [], []⟩ (fun _ hp => hp)
            (Loader.stinv_empty ps) with ⟨st, hva⟩ | ⟨⟨a, b, hva⟩, _⟩
        · exfalso
          have hok : Loader.sortByDependencies ps = .ok st.sorted := by
            simp only [Loader.sortByDependencies]
            rw [hva]
          rw [hs] at hok
          simp at hok
        · have herr : Loader.sortByDependencies ps = .error (.missing a b) := by
            simp only [Loader.sortByDependencies]
            rw [hva]
          rw [hs] at herr
          exact ⟨a, b, Except.error.inj herr⟩
  · intro hacyc hreq p hp
    obtain ⟨rank, hrank⟩ := hacyc
    rcases Loader.visitAll_prog ps rank hrank ps ⟨[], [], []⟩ (fun _ hp' => hp')
        (Loader.stinv_empty ps) with ⟨st, hva⟩ | ⟨_, habs⟩
    · have hs : Loader.sortByDependencies ps = .ok st.sorted := by
        simp only [Loader.sortByDependencies]
        rw [hva]
      have hperm := Loader.sort_perm hnames hs
      have hpo : p ∈ st.sorted := hperm.mem_iff.mpr hp
      obtain ⟨hinv, _, _⟩ := Loader.visitAll_ok ps ⟨[], [], []⟩ st
        (fun _ hp' => hp') (Loader.stinv_empty ps) hva
      refine ⟨st.sorted,
        st.sorted.map (fun q => Loader.TraceEv.init q.name) ++
          (st.sorted.reverse.filter (fun q => q.hasAfterInitAll)).map
            (fun q => Loader.TraceEv.final q.name),
        hs, hpo, ?_, ?_, ?_⟩
      · simp only [Loader.startTrace]
        rw [hs]
      · exact List.mem_append_left _ (List.mem_map_of_mem _ hpo)
      · intro d hd hopt hnone
        have hsw : Loader.sortWarns ps = st.warns := by
          simp only [Loader.sortWarns]
          rw [hva]
        rw [hsw]
        exact hinv.warnOk p hpo d hd hopt hnone
    · exfalso
      obtain ⟨q, hq, d, hd, hopt, hnone⟩ := habs
      have hsome := hreq q hq d hd hopt
      rw [hnone] at hsome
      simp at hsome

/-- Claim C7, unconditional error-kind clause, refuted: in the set where A
requires B and B requires A and then the absent X, a required dependency is
absent from the set, yet the resolver reports the circular-dependency error
(the cycle is found first), not the missing-dependency error. -/
theorem c7_counterexample :
    Loader.sortByDependencies Loader.exCyc = .error (.circular ["A", "B", "A"]) ∧
    Loader.HasAbsentReq Loader.exCyc ∧
    ∀ a b, Loader.sortByDependencies Loader.exCyc ≠ .error (.missing a b) := by
  refine ⟨by decide, by unfold Loader.HasAbsentReq; decide, ?_⟩
  intro a b h
  have hc : Loader.sortByDependencies Loader.exCyc = .error (.circular ["A", "B", "A"]) := by
    decide
  rw [hc] at h
  exact Loader.SortErr.noConfusion (Except.error.inj h)

/-- Claim C7 witness: the one-plugin set P requiring the absent X discharges
the required half, and the one-plugin set Q optionally depending on the
absent X discharges the optional half, including the logged warning for the
skipped dependency. -/
theorem c7_missing_dependency_witness :
    ((Loader.names Loader.exReq).Nodup ∧ Loader.HasAbsentReq Loader.exReq ∧
      ∃ e, Loader.sortByDependencies Loader.exReq = .error e ∧
        Loader.startTrace Loader.exReq = .error e ∧
        (Loader.Acyclic Loader.exReq → ∃ a b, e = .missing a b)) ∧
    ((Loader.names Loader.exOpt).Nodup ∧ Loader.ReqPresent Loader.exOpt ∧
      Loader.exOptQ ∈ Loader.exOpt ∧
      ∃ out tr, Loader.sortByDependencies Loader.exOpt = .ok out ∧
        Loader.exOptQ ∈ out ∧ Loader.startTrace Loader.exOpt = .ok tr ∧
        Loader.TraceEv.init Loader.exOptQ.name ∈ tr ∧
        (∀ d ∈ Loader.exOptQ.dependsOn, d.optional = true →
          Loader.findPlugin Loader.exOpt d.name = none →
          (Loader.exOptQ.name, d.name) ∈ Loader.sortWarns Loader.exOpt)) :=
  ⟨⟨by decide, by unfold Loader.HasAbsentReq; decide,
    (c7_missing_dependency Loader.exReq (by decide)).1
      (by unfold Loader.HasAbsentReq; decide)⟩,
   ⟨by decide, by unfold Loader.ReqPresent; decide, by decide,
    (c7_missing_dependency Loader.exOpt (by decide)).2 Loader.exOpt_acyclic
      (by unfold Loader.ReqPresent; decide) Loader.exOptQ (by decide)⟩⟩

/-- Claim C8: for the plugins Config (no dependencies), Database (depending
on Config) and Api (depending on Config and Database), supplied in any input
order, Loader.start runs the init hooks in the order Config, Database, Api
and the afterInitAll hooks in the exact reverse order Api, Database, Config. -/
theorem c8_end_to_end (ps : List Loader.Plugin)
    (h : List.Perm ps [Loader.cfgPlugin, Loader.dbPlugin, Loader.apiPlugin]) :
    Loader.startTrace ps = .ok
      [.init "Config", .init "Database", .init "Api",
       .final "Api", .final "Database", .final "Config"] := by
  have hlen := h.length_eq
  rcases ps with _ | ⟨a, ps⟩
  · simp at hlen
  rcases ps with _ | ⟨b, ps⟩
  · simp at hlen
  rcases ps with _ | ⟨c, ps⟩
  · simp at hlen
  rcases ps with _ | ⟨d, ps⟩
  swap
  · simp [List.length_cons] at hlen
  have ha : a ∈ [Loader.cfgPlugin, Loader.dbPlugin, Loader.apiPlugin] := h.subset (by simp)
  have hb : b ∈ [Loader.cfgPlugin, Loader.dbPlugin, Loader.apiPlugin] := h.subset (by simp)
  have hc : c ∈ [Loader.cfgPlugin, Loader.dbPlugin, Loader.apiPlugin] := h.subset (by simp)
  have hnd : ([a, b, c] : List Loader.Plugin).Nodup := h.symm.nodup (by decide)
  fin_cases ha <;> fin_cases hb <;> fin_cases hc <;>
    first
      | exact absurd hnd (by decide)
      | decide

/-- Claim C8 witness: the scenario in its direct input order. -/
theorem c8_end_to_end_witness :
    Loader.startTrace [Loader.cfgPlugin, Loader.dbPlugin, Loader.apiPlugin] = .ok
      [.init "Config", .init "Database", .init "Api",
       .final "Api", .final "Database", .final "Config"] :=
  c8_end_to_end _ (List.Perm.refl _)

/-! ### Registry lemmas -/

namespace Registry

theorem first_occ_split (n : String) :
    ∀ l : List PluginR, n ∈ l.map (fun q => q.name) →
      ∃ m₁ q m₂, l = m₁ ++ q :: m₂ ∧ q.name = n ∧ n ∉ m₁.map (fun r => r.name)
  | [], h => by simp at h
  | x :: l, h => by
    by_cases hx : x.name = n
    · exact ⟨[], x, l, rfl, hx, by simp⟩
    · have h' : n ∈ l.map (fun q => q.name) := by
        rcases List.mem_cons.mp h with h0 | h0
        · exact absurd h0.symm hx
        · exact h0
      obtain ⟨m₁, q, m₂, rfl, hq, hnm⟩ := first_occ_split n l h'
      refine ⟨x :: m₁, q, m₂, rfl, hq, ?_⟩
      simp only [List.map_cons, List.mem_cons, not_or]
      exact ⟨fun hmem => hx hmem.symm, hnm⟩

theorem nodup_or_first_dup :
    ∀ ps : List PluginR, (ps.map (fun q => q.name)).Nodup ∨
      ∃ l₁ p l₂, ps = l₁ ++ p :: l₂ ∧ (l₁.map (fun q => q.name)).Nodup ∧
        p.name ∈ l₁.map (fun q => q.name)
  | [] => Or.inl (by simp)
  | x :: rest => by
    rcases nodup_or_first_dup rest with hnd | ⟨l₁, p, l₂, rfl, hnd₁, hdup⟩
    · by_cases hx : x.name ∈ rest.map (fun q => q.name)
      · obtain ⟨m₁, q, m₂, rfl, hq, hnm⟩ := first_occ_split x.name rest hx
        refine Or.inr ⟨x :: m₁, q, m₂, rfl, ?_, by simp [hq]⟩
        simp only [List.map_cons, List.nodup_cons]
        refine ⟨hnm, ?_⟩
        have hsub : List.Sublist (m₁.map (fun r => r.name))
            ((m₁ ++ q :: m₂).map (fun r => r.name)) :=
          (List.sublist_append_left m₁ (q :: m₂)).map _
        exact hnd.sublist hsub
      · exact Or.inl (by simp only [List.map_cons, List.nodup_cons]; exact ⟨hx, hnd⟩)
    · by_cases hx : x.name ∈ l₁.map (fun q => q.name)
      · obtain ⟨m₁, q, m₂, hsplit, hq, hnm⟩ := first_occ_split x.name l₁ hx
        refine Or.inr ⟨x :: m₁, q, m₂ ++ p :: l₂, by rw [hsplit]; simp, ?_, by simp [hq]⟩
        simp only [List.map_cons, List.nodup_cons]
        refine ⟨hnm, ?_⟩
        have hsub : List.Sublist (m₁.map (fun r => r.name)) (l₁.map (fun r => r.name)) := by
          rw [hsplit]
          exact (List.sublist_append_left m₁ (q :: m₂)).map _
        exact hnd₁.sublist hsub
      · refine Or.inr ⟨x :: l₁, p, l₂, rfl, ?_, by simp [hdup]⟩
        simp only [List.map_cons, List.nodup_cons]
        exact ⟨hx, hnd₁⟩

theorem registerAll_split (l₁ : List PluginR) (p : PluginR) (l₂ : List PluginR) :
    ∀ (seen : List String) (tr : List HookEv),
      (∀ n ∈ l₁.map (fun q => q.name), n ∉ seen) →
      (l₁.map (fun q => q.name)).Nodup →
      p.name ∈ seen ++ l₁.map (fun q => q.name) →
      registerAll (l₁ ++ p :: l₂) seen tr =
        (seen ++ l₁.map (fun q => q.name),
         tr ++ (l₁.filter (fun q => q.hasRegister)).map (fun q => HookEv.registerHook q.name),
         some p.name) := by
  induction l₁ with
  | nil =>
    intro seen tr _ _ hp
    simp only [List.nil_append, registerAll]
    rw [if_pos (by simpa using hp)]
    simp
  | cons x l₁ ih =>
    intro seen tr hfresh hnd hp
    have hxs : x.name ∉ seen := hfresh x.name (by simp)
    have hnd2 : x.name ∉ l₁.map (fun q => q.name) ∧ (l₁.map (fun q => q.name)).Nodup := by
      rw [List.map_cons, List.nodup_cons] at hnd
      exact hnd
    have hstep : registerAll ((x :: l₁) ++ p :: l₂) seen tr =
        registerAll (l₁ ++ p :: l₂) (seen ++ [x.name])
          (tr ++ if x.hasRegister then [HookEv.registerHook x.name] else []) := by
      show registerAll (x :: (l₁ ++ p :: l₂)) seen tr = _
      simp only [registerAll]
      rw [if_neg hxs]
    rw [hstep, ih (seen ++ [x.name])
        (tr ++ if x.hasRegister then [HookEv.registerHook x.name] else [])
        ?_ hnd2.2 ?_]
    · simp only [List.map_cons, List.filter_cons]
      by_cases hreg : x.hasRegister
      · simp [hreg, List.append_assoc]
      · simp [hreg, List.append_assoc]
    · intro n hn
      simp only [List.mem_append, List.mem_singleton, not_or]
      exact ⟨hfresh n (by simp [hn]), fun he => hnd2.1 (he ▸ hn)⟩
    · rcases List.mem_append.mp hp with h' | h'
      · exact List.mem_append_left _ (List.mem_append_left _ h')
      · rw [List.map_cons] at h'
        rcases List.mem_cons.mp h' with h'' | h''
        · exact List.mem_append_left _ (List.mem_append_right _ (by simp [h'']))
        · exact List.mem_append_right _ h''

end Registry

/-- Claim C5 (amended): a descriptor sequence containing two descriptors with
the same name makes the Registry constructor raise the duplicate-name error at
the first duplicate; no initialize hook of any descriptor executes and no hook
of the duplicate executes, but the register hooks of the descriptors
registered before the duplicate — the original included — have already
executed.  (The claim that no hook of either descriptor executes is refuted
by c5_counterexample.) -/
theorem c5_duplicate_name (ps : List Registry.PluginR)
    (hdup : ¬ (ps.map (fun q => q.name)).Nodup) :
    ∃ l₁ p l₂, ps = l₁ ++ p :: l₂ ∧ p.name ∈ l₁.map (fun q => q.name) ∧
      Registry.registryRun ps =
        ((l₁.filter (fun q => q.hasRegister)).map
            (fun q => Registry.HookEv.registerHook q.name),
         some p.name) ∧
      ∀ n, Registry.HookEv.initHook n ∉ (Registry.registryRun ps).1 := by
  rcases Registry.nodup_or_first_dup ps with hnd | ⟨l₁, p, l₂, rfl, hnd₁, hdup₁⟩
  · exact absurd hnd hdup
  · have hrun : Registry.registryRun (l₁ ++ p :: l₂) =
        ((l₁.filter (fun q => q.hasRegister)).map
            (fun q => Registry.HookEv.registerHook q.name),
         some p.name) := by
      unfold Registry.registryRun
      rw [Registry.registerAll_split l₁ p l₂ [] [] (by simp) hnd₁ (by simpa using hdup₁)]
      simp
    refine ⟨l₁, p, l₂, rfl, hdup₁, hrun, ?_⟩
    intro n hmem
    rw [hrun] at hmem
    simp only [List.mem_map] at hmem
    obtain ⟨q, _, hq⟩ := hmem
    exact Registry.HookEv.noConfusion hq

/-- Claim C5 refuted as stated: registering two descriptors named dup raises
the duplicate-name error, but the register hook of the original descriptor
has already executed by then, so a hook of one of the two descriptors does
execute. -/
theorem c5_counterexample :
    Registry.registryRun Registry.exDup =
      ([Registry.HookEv.registerHook "dup"], some "dup") ∧
    Registry.HookEv.registerHook "dup" ∈ (Registry.registryRun Registry.exDup).1 :=
  ⟨by decide, by decide⟩

/-- Claim C5 witness: the two-descriptor duplicate input discharges the
hypothesis of the amended theorem. -/
theorem c5_duplicate_name_witness :
    ¬ ((Registry.exDup.map (fun q => q.name)).Nodup) ∧
    ∃ l₁ p l₂, Registry.exDup = l₁ ++ p :: l₂ ∧ p.name ∈ l₁.map (fun q => q.name) ∧
      Registry.registryRun Registry.exDup =
        ((l₁.filter (fun q => q.hasRegister)).map
            (fun q => Registry.HookEv.registerHook q.name),
         some p.name) ∧
      ∀ n, Registry.HookEv.initHook n ∉ (Registry.registryRun Registry.exDup).1 :=
  ⟨by decide, c5_duplicate_name Registry.exDup (by decide)⟩

/-! ### Event-bus lemmas -/

namespace Events

theorem mapGet_cons_pos {α : Type} {a : String × α} {m : List (String × α)} {k : String}
    (ha : (a.1 == k) = true) : mapGet (a :: m) k = some a.2 := by
  unfold mapGet
  simp only [List.find?, ha]
  rfl

theorem mapGet_cons_neg {α : Type} {a : String × α} {m : List (String × α)} {k : String}
    (ha : (a.1 == k) = false) : mapGet (a :: m) k = mapGet m k := by
  unfold mapGet
  simp only [List.find?, ha]

theorem findKey_cons_pos {α : Type} {a : String × α} {m : List (String × α)} {k : String}
    (ha : (a.1 == k) = true) :
    (a :: m).find? (fun kv => kv.1 == k) = some a := by
  simp only [List.find?, ha]

theorem findKey_cons_neg {α : Type} {a : String × α} {m : List (String × α)} {k : String}
    (ha : (a.1 == k) = false) :
    (a :: m).find? (fun kv => kv.1 == k) = m.find? (fun kv => kv.1 == k) := by
  simp only [List.find?, ha]

theorem mapGet_map_upd_self {α : Type} (k : String) (v : α) :
    ∀ m : List (String × α), (m.find? (fun kv => kv.1 == k)).isSome = true →
      mapGet (m.map (fun kv => if kv.1 == k then (k, v) else kv)) k = some v
  | [], h => by simp at h
  | a :: m, h => by
    rw [List.map_cons]
    by_cases ha : (a.1 == k) = true
    · rw [if_pos ha, mapGet_cons_pos (by simp)]
    · have ha' : (a.1 == k) = false := by simpa using ha
      rw [findKey_cons_neg ha'] at h
      rw [if_neg ha, mapGet_cons_neg ha']
      exact mapGet_map_upd_self k v m h

theorem mapGet_append_self {α : Type} (k : String) (v : α) :
    ∀ m : List (String × α), (m.find? (fun kv => kv.1 == k)).isSome = false →
      mapGet (m ++ [(k, v)]) k = some v
  | [], _ => by
    rw [List.nil_append, mapGet_cons_pos (by simp)]
  | a :: m, h => by
    by_cases ha : (a.1 == k) = true
    · rw [findKey_cons_pos ha] at h
      simp at h
    · have ha' : (a.1 == k) = false := by simpa using ha
      rw [findKey_cons_neg ha'] at h
      rw [List.cons_append, mapGet_cons_neg ha']
      exact mapGet_append_self k v m h

theorem mapGet_set_self {α : Type} (m : List (String × α)) (k : String) (v : α) :
    mapGet (mapSet m k v) k = some v := by
  unfold mapSet
  by_cases h : (m.find? (fun kv => kv.1 == k)).isSome = true
  · rw [if_pos h]
    exact mapGet_map_upd_self k v m h
  · rw [if_neg h]
    exact mapGet_append_self k v m (by rwa [Bool.not_eq_true] at h)

theorem mapGet_map_upd_other {α : Type} (k k' : String) (v : α) (hne : k' ≠ k) :
    ∀ m : List (String × α),
      mapGet (m.map (fun kv => if kv.1 == k then (k, v) else kv)) k' = mapGet m k'
  | [] => rfl
  | a :: m => by
    rw [List.map_cons]
    by_cases ha : (a.1 == k) = true
    · have hak : a.1 = k := by simpa using ha
      have h1 : (((k, v) : String × α).1 == k') = false := by
        simp only [beq_eq_false_iff_ne]
        exact Ne.symm hne
      have h2 : (a.1 == k') = false := by
        rw [hak]
        simp only [beq_eq_false_iff_ne]
        exact Ne.symm hne
      rw [if_pos ha, mapGet_cons_neg h1, mapGet_cons_neg h2]
      exact mapGet_map_upd_other k k' v hne m
    · rw [if_neg ha]
      by_cases ha' : (a.1 == k') = true
      · rw [mapGet_cons_pos ha', mapGet_cons_pos ha']
      · have ha'' : (a.1 == k') = false := by simpa using ha'
        rw [mapGet_cons_neg ha'', mapGet_cons_neg ha'']
        exact mapGet_map_upd_other k k' v hne m

theorem mapGet_append_other {α : Type} (k k' : String) (v : α) (hne : k' ≠ k) :
    ∀ m : List (String × α), mapGet (m ++ [(k, v)]) k' = mapGet m k'
  | [] => by
    rw [List.nil_append, mapGet_cons_neg (by
      simp only [beq_eq_false_iff_ne]
      exact Ne.symm hne)]
  | a :: m => by
    rw [List.cons_append]
    by_cases ha : (a.1 == k') = true
    · rw [mapGet_cons_pos ha, mapGet_cons_pos ha]
    · have ha' : (a.1 == k') = false := by simpa using ha
      rw [mapGet_cons_neg ha', mapGet_cons_neg ha']
      exact mapGet_append_other k k' v hne m

theorem mapGet_set_other {α : Type} (m : List (String × α)) (k k' : String) (v : α)
    (hne : k' ≠ k) : mapGet (mapSet m k v) k' = mapGet m k' := by
  unfold mapSet
  by_cases h : (m.find? (fun kv => kv.1 == k)).isSome = true
  · rw [if_pos h]
    exact mapGet_map_upd_other k k' v hne m
  · rw [if_neg h]
    exact mapGet_append_other k k' v hne m

theorem mem_mapSet {α : Type} {m : List (String × α)} {k : String} {v : α} {kv : String × α}
    (h : kv ∈ mapSet m k v) : kv = (k, v) ∨ kv ∈ m := by
  unfold mapSet at h
  by_cases hf : (m.find? (fun kv' => kv'.1 == k)).isSome = true
  · rw [if_pos hf] at h
    obtain ⟨kv₀, hkv₀, heq⟩ := List.mem_map.mp h
    by_cases hk : (kv₀.1 == k) = true
    · rw [if_pos hk] at heq
      exact Or.inl heq.symm
    · rw [if_neg hk] at heq
      exact Or.inr (heq ▸ hkv₀)
  · rw [if_neg hf] at h
    rcases List.mem_append.mp h with h' | h'
    · exact Or.inr h'
    · exact Or.inl (List.mem_singleton.mp h')

theorem mem_mapDelete {α : Type} {m : List (String × α)} {k : String} {kv : String × α}
    (h : kv ∈ mapDelete m k) : kv ∈ m :=
  List.mem_of_mem_filter h

theorem mapGet_mem {α : Type} {m : List (String × α)} {k : String} {v : α}
    (h : mapGet m k = some v) : ∃ kv ∈ m, kv.1 = k ∧ kv.2 = v := by
  unfold mapGet at h
  cases hf : m.find? (fun kv => kv.1 == k) with
  | none => rw [hf] at h; simp at h
  | some kv =>
    rw [hf] at h
    refine ⟨kv, List.mem_of_find?_eq_some hf, ?_, ?_⟩
    · have hp := List.find?_some hf
      simpa using hp
    · simpa using h

end Events

namespace Events

theorem firedIn_getD (st : Bus) (e : String) :
    ((mapGet st.events e).getD ⟨[], false⟩).fired = firedIn st e := by
  unfold firedIn
  cases mapGet st.events e <;> rfl

theorem fireListener_inert (emitL : String → Bus → Bus) {l : Listener}
    (h : l.emits = []) (st : Bus) :
    fireListener emitL l st = { st with log := st.log ++ [.invoke l.lid] } := by
  unfold fireListener
  rw [h]
  rfl

theorem runListeners_inert (emitL : String → Bus → Bus) :
    ∀ (ls : List Listener), (∀ l ∈ ls, l.emits = []) → ∀ st,
      runListeners emitL ls st =
        { st with log := st.log ++ ls.map (fun l => LogEv.invoke l.lid) }
  | [], _, st => by simp [runListeners]
  | l :: ls, h, st => by
    rw [runListeners, fireListener_inert emitL (h l (by simp)) st,
      runListeners_inert emitL ls (fun x hx => h x (by simp [hx]))]
    simp

theorem emit_fired (fuel : Nat) (e : String) (st : Bus) (h : firedIn st e = true) :
    emit (fuel + 1) e st = { st with log := st.log ++ [.skipped e] } := by
  have hf : ((mapGet st.events e).getD ⟨[], false⟩).fired = true := by
    rw [firedIn_getD]
    exact h
  simp only [emit]
  rw [if_pos hf]

theorem emit_step (fuel : Nat) (e : String) (st : Bus) (ls : List Listener)
    (hget : (mapGet st.events e).getD ⟨[], false⟩ = ⟨ls, false⟩)
    (hin : ∀ l ∈ ls, l.emits = []) :
    emit (fuel + 1) e st =
      checkTriggers (fun e' s => emit fuel e' s)
        { st with
          events := mapSet st.events e ⟨ls, true⟩,
          log := st.log ++ LogEv.emitting e :: ls.map (fun l => LogEv.invoke l.lid) } := by
  simp only [emit]
  rw [hget]
  rw [if_neg (by simp)]
  dsimp only
  rw [runListeners_inert _ ls hin]
  congr 1
  simp

theorem checkTriggers_empty (emitL : String → Bus → Bus) (st : Bus)
    (h : st.triggers = []) : checkTriggers emitL st = st := by
  unfold checkTriggers
  rw [h]
  rfl

theorem checkTriggers_single (emitL : String → Bus → Bus) (st : Bus) (k : String)
    (t : Trigger) (htr : st.triggers = [(k, t)]) (hin : t.listener.emits = []) :
    checkTriggers emitL st =
      if evalCond t.cond t.events st then
        { st with triggers := [], log := st.log ++ [.invoke t.listener.lid] }
      else st := by
  unfold checkTriggers
  rw [htr]
  simp only [List.map_cons, List.map_nil]
  unfold checkKeys
  rw [htr, mapGet_cons_pos (by simp)]
  dsimp only
  by_cases hc : evalCond t.cond t.events st = true
  · rw [if_pos hc, if_pos hc]
    rw [fireListener_inert emitL hin st]
    unfold checkKeys
    congr 1
    rw [htr]
    simp [mapDelete]
  · rw [if_neg hc, if_neg hc]
    rfl

end Events

namespace Events

theorem checkKeys_inert (emitL : String → Bus → Bus) :
    ∀ (ks : List String) (st : Bus),
      (∀ kv ∈ st.triggers, kv.2.listener.emits = []) →
      ∃ (lids : List Nat) (tr' : List (String × Trigger)),
        checkKeys emitL ks st =
          { st with triggers := tr', log := st.log ++ lids.map LogEv.invoke } ∧
        (∀ n ∈ lids, n ∈ st.triggers.map (fun kv => kv.2.listener.lid)) ∧
        (∀ kv ∈ tr', kv ∈ st.triggers)
  | [], st, _ => ⟨[], st.triggers, by simp [checkKeys], by simp, fun _ h => h⟩
  | k :: ks, st, hin => by
    unfold checkKeys
    cases hget : mapGet st.triggers k with
    | none =>
      dsimp only
      exact checkKeys_inert emitL ks st hin
    | some t =>
      dsimp only
      by_cases hc : evalCond t.cond t.events st = true
      · rw [if_pos hc]
        obtain ⟨kv, hkv, _, hkv2⟩ := mapGet_mem hget
        have htin : t.listener.emits = [] := by
          have hkvin := hin kv hkv
          rw [hkv2] at hkvin
          exact hkvin
        rw [fireListener_inert emitL htin st]
        dsimp only
        have hin2 : ∀ kv' ∈ mapDelete st.triggers k, kv'.2.listener.emits = [] :=
          fun kv' hkv' => hin kv' (mem_mapDelete hkv')
        obtain ⟨lids', tr', heq, hsub, htr'⟩ :=
          checkKeys_inert emitL ks
            { st with triggers := mapDelete st.triggers k,
                      log := st.log ++ [LogEv.invoke t.listener.lid] } hin2
        refine ⟨t.listener.lid :: lids', tr', ?_, ?_, ?_⟩
        · rw [heq]
          simp
        · intro n hn
          rcases List.mem_cons.mp hn with rfl | hn'
          · rw [← hkv2]
            exact List.mem_map_of_mem _ hkv
          · obtain ⟨kv', hkv', hlid⟩ := List.mem_map.mp (hsub n hn')
            exact hlid ▸ List.mem_map_of_mem _ (mem_mapDelete hkv')
        · exact fun kv' hkv' => mem_mapDelete (htr' kv' hkv')
      · rw [if_neg hc]
        exact checkKeys_inert emitL ks st hin

end Events

namespace Events

theorem subFired_refl (st : Bus) : subFired st st := fun _ h => h

theorem subFired_trans {s1 s2 s3 : Bus} (h1 : subFired s1 s2) (h2 : subFired s2 s3) :
    subFired s1 s3 := fun e h => h2 e (h1 e h)

theorem subFired_log {st : Bus} {L : List LogEv} : subFired st { st with log := L } :=
  fun _ h => h

theorem subFired_triggers {st : Bus} {T : List (String × Trigger)} :
    subFired st { st with triggers := T } := fun _ h => h

theorem subFired_stuck {st : Bus} {b : Bool} : subFired st { st with stuck := b } :=
  fun _ h => h

theorem firedIn_set_true {st : Bus} {e : String} {ls : List Listener} :
    firedIn { st with events := mapSet st.events e ⟨ls, true⟩ } e = true := by
  unfold firedIn
  dsimp only
  rw [mapGet_set_self]

theorem firedIn_set_other {st : Bus} {e e' : String} {r : EventRec} (hne : e' ≠ e) :
    firedIn { st with events := mapSet st.events e r } e' = firedIn st e' := by
  unfold firedIn
  dsimp only
  rw [mapGet_set_other _ _ _ _ hne]

theorem subFired_set_true {st : Bus} {e : String} {ls : List Listener} :
    subFired st { st with events := mapSet st.events e ⟨ls, true⟩ } := by
  intro e' h
  by_cases he : e' = e
  · subst he
    exact firedIn_set_true
  · rw [firedIn_set_other he]
    exact h

theorem subFired_set_keep {st : Bus} {e : String} {ls : List Listener} :
    subFired st { st with
      events := mapSet st.events e ⟨ls, ((mapGet st.events e).getD ⟨[], false⟩).fired⟩ } := by
  intro e' h
  by_cases he : e' = e
  · subst he
    unfold firedIn
    dsimp only
    rw [mapGet_set_self]
    rw [firedIn_getD]
    exact h
  · rw [firedIn_set_other he]
    exact h

theorem runEmits_mono {emitL : String → Bus → Bus} (hm : MonoEmit emitL) :
    ∀ (es : List String) (st : Bus), subFired st (runEmits emitL es st)
  | [], st => subFired_refl st
  | e :: es, st => subFired_trans (hm e st) (runEmits_mono hm es (emitL e st))

theorem fireListener_mono {emitL : String → Bus → Bus} (hm : MonoEmit emitL)
    (l : Listener) (st : Bus) : subFired st (fireListener emitL l st) := by
  unfold fireListener
  exact subFired_trans subFired_log (runEmits_mono hm l.emits _)

theorem runListeners_mono {emitL : String → Bus → Bus} (hm : MonoEmit emitL) :
    ∀ (ls : List Listener) (st : Bus), subFired st (runListeners emitL ls st)
  | [], st => subFired_refl st
  | l :: ls, st =>
    subFired_trans (fireListener_mono hm l st) (runListeners_mono hm ls _)

theorem checkKeys_mono {emitL : String → Bus → Bus} (hm : MonoEmit emitL) :
    ∀ (ks : List String) (st : Bus), subFired st (checkKeys emitL ks st)
  | [], st => subFired_refl st
  | k :: ks, st => by
    unfold checkKeys
    cases hget : mapGet st.triggers k with
    | none =>
      dsimp only
      exact checkKeys_mono hm ks st
    | some t =>
      dsimp only
      by_cases hc : evalCond t.cond t.events st = true
      · rw [if_pos hc]
        refine subFired_trans ?_ (checkKeys_mono hm ks _)
        exact subFired_trans (fireListener_mono hm t.listener st) subFired_triggers
      · rw [if_neg hc]
        exact checkKeys_mono hm ks st

theorem checkTriggers_mono {emitL : String → Bus → Bus} (hm : MonoEmit emitL)
    (st : Bus) : subFired st (checkTriggers emitL st) :=
  checkKeys_mono hm _ st

theorem emit_mono : ∀ (fuel : Nat) (e : String) (st : Bus), subFired st (emit fuel e st)
  | 0, _, _ => subFired_stuck
  | fuel + 1, e, st => by
    have hm : MonoEmit (fun e' s => emit fuel e' s) := fun e' s => emit_mono fuel e' s
    by_cases hf : ((mapGet st.events e).getD ⟨[], false⟩).fired = true
    · simp only [emit]
      rw [if_pos hf]
      exact subFired_log
    · simp only [emit]
      rw [if_neg hf]
      refine subFired_trans (@subFired_log st (st.log ++ [LogEv.emitting e])) ?_
      refine subFired_trans
        (runListeners_mono hm ((mapGet st.events e).getD ⟨[], false⟩).listeners
          { st with log := st.log ++ [LogEv.emitting e] }) ?_
      exact subFired_trans subFired_set_true (checkTriggers_mono hm _)

theorem onTrigger_mono (fuel : Nat) (c : Cond) (evs : List String) (l : Listener)
    (st st' : Bus) (h : onTrigger fuel c evs l st = .ok st') : subFired st st' := by
  have hm : MonoEmit (fun e' s => emit fuel e' s) := fun e' s => emit_mono fuel e' s
  cases c with
  | single =>
    cases evs with
    | nil => simp [onTrigger] at h
    | cons e rest =>
      cases rest with
      | nil =>
        simp only [onTrigger] at h
        injection h with h
        subst h
        exact subFired_trans subFired_set_keep (checkTriggers_mono hm _)
      | cons e2 rest2 => simp [onTrigger] at h
  | any =>
    simp only [onTrigger] at h
    injection h with h
    subst h
    exact subFired_trans subFired_triggers (checkTriggers_mono hm _)
  | all =>
    simp only [onTrigger] at h
    injection h with h
    subst h
    exact subFired_trans subFired_triggers (checkTriggers_mono hm _)

theorem runOp_mono (fuel : Nat) (st : Bus) (op : BusOp) :
    subFired st (runOp fuel st op) := by
  cases op with
  | emitEv e => exact emit_mono fuel e st
  | subscribe c evs l =>
    unfold runOp
    dsimp only
    cases h : onTrigger fuel c evs l st with
    | ok st' =>
      exact onTrigger_mono fuel c evs l st st' h
    | error e =>
      exact subFired_refl st

theorem runOps_mono (fuel : Nat) :
    ∀ (ops : List BusOp) (st : Bus), subFired st (runOps fuel ops st)
  | [], st => subFired_refl st
  | op :: ops, st =>
    subFired_trans (runOp_mono fuel st op) (runOps_mono fuel ops _)

end Events

namespace Events

theorem emit_once_inert (fuel : Nat) (x : String) (st : Bus) (ls : List Listener)
    (hget : (mapGet st.events x).getD ⟨[], false⟩ = ⟨ls, false⟩)
    (hin : ∀ l ∈ ls, l.emits = [])
    (htrig : ∀ kv ∈ st.triggers, kv.2.listener.emits = []) :
    ∃ (lids : List Nat) (tr' : List (String × Trigger)),
      emit (fuel + 1) x st =
        { st with
          events := mapSet st.events x ⟨ls, true⟩,
          triggers := tr',
          log := (st.log ++ LogEv.emitting x :: ls.map (fun l => LogEv.invoke l.lid)) ++ lids.map LogEv.invoke } ∧
      (∀ n ∈ lids, n ∈ st.triggers.map (fun kv => kv.2.listener.lid)) := by
  rw [emit_step fuel x st ls hget hin]
  unfold checkTriggers
  obtain ⟨lids, tr', hck, hlids, _⟩ :=
    checkKeys_inert (fun e' s => emit fuel e' s)
      (({ st with
          events := mapSet st.events x ⟨ls, true⟩,
          log := st.log ++ LogEv.emitting x :: ls.map (fun l => LogEv.invoke l.lid) }
        : Bus).triggers.map (fun kv => kv.1))
      { st with
        events := mapSet st.events x ⟨ls, true⟩,
        log := st.log ++ LogEv.emitting x :: ls.map (fun l => LogEv.invoke l.lid) }
      (fun kv hkv => htrig kv hkv)
  refine ⟨lids, tr', ?_, hlids⟩
  rw [hck]

end Events

/-- Claim C2: emitting an event name twice invokes each of its single
subscribed listeners exactly once in total — the first emit runs each
listener once (among inert listeners with distinct identities) and marks the
event fired, and the second emit only logs the skip and changes nothing
else — and the fired flag of an event never reverts under any bus
operation. -/
theorem c2_emit_twice_once_total :
    (∀ (fuel₁ fuel₂ : Nat) (st : Events.Bus) (x : String) (ls : List Events.Listener),
      (Events.mapGet st.events x).getD ⟨[], false⟩ = ⟨ls, false⟩ →
      (∀ l ∈ ls, l.emits = []) →
      (ls.map (fun l => l.lid)).Nodup →
      (∀ kv ∈ st.triggers, kv.2.listener.emits = [] ∧
        kv.2.listener.lid ∉ ls.map (fun l => l.lid)) →
      (∀ l ∈ ls,
        Events.countInv l.lid (Events.emit (fuel₂ + 1) x (Events.emit (fuel₁ + 1) x st)) =
          Events.countInv l.lid st + 1) ∧
      Events.emit (fuel₂ + 1) x (Events.emit (fuel₁ + 1) x st) =
        { Events.emit (fuel₁ + 1) x st with
          log := (Events.emit (fuel₁ + 1) x st).log ++ [.skipped x] }) ∧
    (∀ (fuel : Nat) (op : Events.BusOp) (st : Events.Bus) (e : String),
      Events.firedIn st e = true → Events.firedIn (Events.runOp fuel st op) e = true) := by
  constructor
  · intro fuel₁ fuel₂ st x ls hget hin hnd htrig
    obtain ⟨lids, tr', hst1, hlids⟩ :=
      Events.emit_once_inert fuel₁ x st ls hget hin (fun kv hkv => (htrig kv hkv).1)
    have hfired1 : Events.firedIn (Events.emit (fuel₁ + 1) x st) x = true := by
      rw [hst1]
      unfold Events.firedIn
      dsimp only
      rw [Events.mapGet_set_self]
    have hst2 := Events.emit_fired fuel₂ x (Events.emit (fuel₁ + 1) x st) hfired1
    refine ⟨?_, hst2⟩
    intro l hl
    rw [hst2]
    unfold Events.countInv
    dsimp only
    rw [hst1]
    dsimp only
    rw [List.count_append, List.count_append, List.count_append]
    have h0 : (List.count (Events.LogEv.invoke l.lid) [Events.LogEv.skipped x] : Nat) = 0 := by
      simp
    have h1 : List.count (Events.LogEv.invoke l.lid)
        (Events.LogEv.emitting x :: ls.map (fun l' => Events.LogEv.invoke l'.lid)) = 1 := by
      rw [List.count_cons_of_ne (by simp)]
      have hmm : ls.map (fun l' => Events.LogEv.invoke l'.lid) =
          (ls.map (fun l' => l'.lid)).map Events.LogEv.invoke := by
        rw [List.map_map]
        rfl
      rw [hmm, List.count_map_of_injective _ _ (fun a b hab => by injection hab)]
      exact List.count_eq_one_of_mem hnd (List.mem_map_of_mem _ hl)
    have h2 : List.count (Events.LogEv.invoke l.lid) (lids.map Events.LogEv.invoke) = 0 := by
      rw [List.count_map_of_injective _ _ (fun a b hab => by injection hab)]
      refine List.count_eq_zero_of_not_mem ?_
      intro hmem
      have hl2 := hlids l.lid hmem
      obtain ⟨kv, hkv, hlid⟩ := List.mem_map.mp hl2
      exact (htrig kv hkv).2 (hlid ▸ List.mem_map_of_mem _ hl)
    rw [h0, h1, h2]
  · intro fuel op st e h
    exact Events.runOp_mono fuel st op e h

namespace Events

theorem emptyTriggers_runEmits {emitL : String → Bus → Bus} (hk : KeepsET emitL) :
    ∀ (es : List String) (st : Bus), st.triggers = [] → (runEmits emitL es st).triggers = []
  | [], _, h => h
  | e :: es, st, h => emptyTriggers_runEmits hk es (emitL e st) (hk e st h)

theorem emptyTriggers_fireListener {emitL : String → Bus → Bus} (hk : KeepsET emitL)
    (l : Listener) (st : Bus) (h : st.triggers = []) :
    (fireListener emitL l st).triggers = [] := by
  unfold fireListener
  exact emptyTriggers_runEmits hk l.emits _ h

theorem emptyTriggers_runListeners {emitL : String → Bus → Bus} (hk : KeepsET emitL) :
    ∀ (ls : List Listener) (st : Bus), st.triggers = [] →
      (runListeners emitL ls st).triggers = []
  | [], _, h => h
  | l :: ls, st, h =>
    emptyTriggers_runListeners hk ls _ (emptyTriggers_fireListener hk l st h)

theorem emptyTriggers_checkKeys {emitL : String → Bus → Bus} :
    ∀ (ks : List String) (st : Bus), st.triggers = [] →
      (checkKeys emitL ks st).triggers = []
  | [], _, h => h
  | k :: ks, st, h => by
    unfold checkKeys
    rw [show mapGet st.triggers k = none from by rw [h]; rfl]
    exact emptyTriggers_checkKeys ks st h

theorem emptyTriggers_emit :
    ∀ (fuel : Nat) (e : String) (st : Bus), st.triggers = [] →
      (emit fuel e st).triggers = []
  | 0, _, _, h => h
  | fuel + 1, e, st, h => by
    have hk : KeepsET (fun e' s => emit fuel e' s) :=
      fun e' s hs => emptyTriggers_emit fuel e' s hs
    by_cases hf : ((mapGet st.events e).getD ⟨[], false⟩).fired = true
    · simp only [emit]
      rw [if_pos hf]
      exact h
    · simp only [emit]
      rw [if_neg hf]
      refine emptyTriggers_checkKeys _ _ ?_
      exact emptyTriggers_runListeners hk _ _ h

end Events

/-- Claim C3 (amended): the bus marks an event fired only after its listeners
have run, so a listener that re-emits its own triggering event observes it as
not yet fired and re-enters instead of short-circuiting: with a single
subscribed listener whose body re-emits the event, emitting the event invokes
that listener once per available recursion level (unboundedly in the
JavaScript original, where the recursion is limited only by the call stack). -/
theorem c3_reentrant_emit_reruns (lid : Nat) (e : String) :
    ∀ (fuel : Nat) (st : Events.Bus),
      (Events.mapGet st.events e).getD ⟨[], false⟩ = ⟨[⟨lid, [e]⟩], false⟩ →
      st.triggers = [] →
      Events.countInv lid (Events.emit fuel e st) = Events.countInv lid st + fuel := by
  intro fuel
  induction fuel with
  | zero =>
    intro st _ _
    simp [Events.emit, Events.countInv]
  | succ fuel ih =>
    intro st hget htr
    simp only [Events.emit]
    rw [hget]
    rw [if_neg (by simp)]
    dsimp only
    simp only [Events.runListeners, Events.fireListener, Events.runEmits]
    have hget' : (Events.mapGet
        ({ st with log := (st.log ++ [Events.LogEv.emitting e]) ++ [Events.LogEv.invoke lid] }
          : Events.Bus).events e).getD ⟨[], false⟩ = ⟨[⟨lid, [e]⟩], false⟩ := hget
    have htr' : ({ st with
        log := (st.log ++ [Events.LogEv.emitting e]) ++ [Events.LogEv.invoke lid] }
          : Events.Bus).triggers = [] := htr
    have hinner := ih _ hget' htr'
    have htr2 := Events.emptyTriggers_emit fuel e _ htr'
    rw [Events.checkTriggers_empty _ _ (by dsimp only; exact htr2)]
    unfold Events.countInv at hinner ⊢
    dsimp only
    rw [hinner]
    dsimp only
    rw [List.count_append, List.count_append]
    have hc1 : List.count (Events.LogEv.invoke lid) [Events.LogEv.emitting e] = 0 := by simp
    have hc2 : List.count (Events.LogEv.invoke lid) [Events.LogEv.invoke lid] = 1 := by simp
    rw [hc1, hc2]
    omega

namespace Events

end Events

/-- Claim C2 witness: a concrete bus with one inert listener on x and one
pending conditional trigger discharges every hypothesis of the theorem. -/
theorem c2_emit_twice_once_total_witness :
    ((Events.mapGet Events.c2Bus.events "x").getD ⟨[], false⟩ = ⟨[Events.c2L], false⟩ ∧
      (∀ l ∈ [Events.c2L], l.emits = []) ∧
      ([Events.c2L].map (fun l => l.lid)).Nodup ∧
      (∀ kv ∈ Events.c2Bus.triggers, kv.2.listener.emits = [] ∧
        kv.2.listener.lid ∉ [Events.c2L].map (fun l => l.lid)) ∧
      (∀ l ∈ [Events.c2L],
        Events.countInv l.lid (Events.emit 1 "x" (Events.emit 1 "x" Events.c2Bus)) =
          Events.countInv l.lid Events.c2Bus + 1) ∧
      Events.emit 1 "x" (Events.emit 1 "x" Events.c2Bus) =
        { Events.emit 1 "x" Events.c2Bus with
          log := (Events.emit 1 "x" Events.c2Bus).log ++ [.skipped "x"] }) ∧
    Events.firedIn Events.c2Bus "x" = false ∧
    Events.firedIn (Events.runOp 1 (Events.emit 1 "x" Events.c2Bus) (.emitEv "y")) "x" = true :=
  ⟨⟨by decide, by decide, by decide, by decide,
    (c2_emit_twice_once_total.1 0 0 Events.c2Bus "x" [Events.c2L] (by decide) (by decide)
      (by decide) (by decide)).1,
    (c2_emit_twice_once_total.1 0 0 Events.c2Bus "x" [Events.c2L] (by decide) (by decide)
      (by decide) (by decide)).2⟩,
   by decide,
   c2_emit_twice_once_total.2 1 (.emitEv "y") (Events.emit 1 "x" Events.c2Bus) "x" (by decide)⟩

/-- Claim C3 refuted as stated: the event is marked fired only after its
listeners run, so a listener of x that re-emits x observes x unfired and
re-enters — with recursion depth 3 the single listener of x runs three
times within one emit instead of exactly once. -/
theorem c3_counterexample :
    Events.countInv 1 (Events.emit 3 "x" Events.c3Bus) = 3 ∧
    2 ≤ Events.countInv 1 (Events.emit 3 "x" Events.c3Bus) := by
  refine ⟨by decide, ?_⟩
  rw [show Events.countInv 1 (Events.emit 3 "x" Events.c3Bus) = 3 from by decide]
  omega

/-- Claim C3 witness: the re-emitting one-listener bus discharges the
hypotheses of the amended theorem at recursion depth 3. -/
theorem c3_reentrant_emit_reruns_witness :
    ((Events.mapGet Events.c3Bus.events "x").getD ⟨[], false⟩ = ⟨[⟨1, ["x"]⟩], false⟩ ∧
      Events.c3Bus.triggers = []) ∧
    Events.countInv 1 (Events.emit 3 "x" Events.c3Bus) = Events.countInv 1 Events.c3Bus + 3 :=
  ⟨⟨by decide, by decide⟩,
   c3_reentrant_emit_reruns 1 "x" 3 Events.c3Bus (by decide) (by decide)⟩

namespace Events

theorem mapSet_nil {α : Type} (k : String) (v : α) : mapSet ([] : List (String × α)) k v = [(k, v)] :=
  rfl

theorem firedIn_eq_of_events {st st' : Bus} (h : st.events = st'.events) (e : String) :
    firedIn st e = firedIn st' e := by
  unfold firedIn
  rw [h]

theorem evalCond_eq_of_events {st st' : Bus} (h : st.events = st'.events)
    (c : Cond) (evs : List String) : evalCond c evs st = evalCond c evs st' := by
  unfold evalCond
  cases c with
  | single => rfl
  | any => exact congrArg _ (funext fun ev => firedIn_eq_of_events h ev)
  | all => exact congrArg _ (funext fun ev => firedIn_eq_of_events h ev)

theorem count_invoke_map_zero {lid : Nat} {ls : List Listener}
    (h : lid ∉ ls.map (fun l => l.lid)) :
    List.count (LogEv.invoke lid) (ls.map (fun l => LogEv.invoke l.lid)) = 0 := by
  have hmm : ls.map (fun l' => LogEv.invoke l'.lid) =
      (ls.map (fun l' => l'.lid)).map LogEv.invoke := by
    rw [List.map_map]
    rfl
  rw [hmm, List.count_map_of_injective _ _ (fun a b hab => by injection hab)]
  exact List.count_eq_zero_of_not_mem h

theorem evalCond_set_triggers (c : Cond) (evs : List String) (st : Bus)
    (T : List (String × Trigger)) :
    evalCond c evs { st with triggers := T } = evalCond c evs st :=
  evalCond_eq_of_events rfl c evs

theorem subscribe_pending_all (fuel : Nat) (evs : List String) (l : Listener) (st : Bus)
    (htr : st.triggers = []) (hl : l.emits = [])
    (hcond : evalCond .all evs st = false) :
    runOp fuel st (.subscribe .all evs l) =
      { st with triggers := [(buildConditionalKey .all evs, ⟨.all, evs, l⟩)] } := by
  unfold runOp onTrigger
  dsimp only
  rw [htr, mapSet_nil]
  rw [checkTriggers_single (fun e' s => emit fuel e' s) _ _ _ rfl hl]
  rw [if_neg (by
    dsimp only
    rw [evalCond_set_triggers]
    simp [hcond])]

theorem subscribe_pending_any (fuel : Nat) (evs : List String) (l : Listener) (st : Bus)
    (htr : st.triggers = []) (hl : l.emits = [])
    (hcond : evalCond .any evs st = false) :
    runOp fuel st (.subscribe .any evs l) =
      { st with triggers := [(buildConditionalKey .any evs, ⟨.any, evs, l⟩)] } := by
  unfold runOp onTrigger
  dsimp only
  rw [htr, mapSet_nil]
  rw [checkTriggers_single (fun e' s => emit fuel e' s) _ _ _ rfl hl]
  rw [if_neg (by
    dsimp only
    rw [evalCond_set_triggers]
    simp [hcond])]

end Events

namespace Events

theorem emit_trigger_steps (fuel : Nat) (x : String) (st : Bus) (ls : List Listener)
    (k : String) (t : Trigger)
    (hget : (mapGet st.events x).getD ⟨[], false⟩ = ⟨ls, false⟩)
    (hin : ∀ l ∈ ls, l.emits = [])
    (htr : st.triggers = [(k, t)])
    (htl : t.listener.emits = []) :
    emit (fuel + 1) x st =
      if evalCond t.cond t.events { st with events := mapSet st.events x ⟨ls, true⟩ } then
        { st with
          events := mapSet st.events x ⟨ls, true⟩,
          triggers := [],
          log := (st.log ++ LogEv.emitting x :: ls.map (fun l => LogEv.invoke l.lid))
            ++ [LogEv.invoke t.listener.lid] }
      else
        { st with
          events := mapSet st.events x ⟨ls, true⟩,
          log := st.log ++ LogEv.emitting x :: ls.map (fun l => LogEv.invoke l.lid) } := by
  rw [emit_step fuel x st ls hget hin]
  rw [checkTriggers_single (fun e' s => emit fuel e' s) _ k t (by dsimp only; exact htr) htl]
  have hcond_eq : evalCond t.cond t.events
      { st with
        events := mapSet st.events x ⟨ls, true⟩,
        log := st.log ++ LogEv.emitting x :: ls.map (fun l => LogEv.invoke l.lid) } =
      evalCond t.cond t.events { st with events := mapSet st.events x ⟨ls, true⟩ } :=
    evalCond_eq_of_events rfl _ _
  rw [hcond_eq]

end Events

/-- C4: for distinct event names a and b, an all-trigger over
[a, b] fires its listener exactly once, only after both events have been
emitted, in either emission order, and the trigger entry is then consumed;
an any-trigger over [a, b] fires its listener exactly once, on the first
emission of either event, in either order. -/
theorem c4_any_all_triggers (fuel fa fb : Nat) (a b : String) (hab : a ≠ b)
    (lid : Nat) (st : Events.Bus) (lsa lsb : List Events.Listener)
    (hgeta : (Events.mapGet st.events a).getD ⟨[], false⟩ = ⟨lsa, false⟩)
    (hgetb : (Events.mapGet st.events b).getD ⟨[], false⟩ = ⟨lsb, false⟩)
    (hina : ∀ l ∈ lsa, l.emits = [])
    (hinb : ∀ l ∈ lsb, l.emits = [])
    (hlida : ∀ l ∈ lsa, l.lid ≠ lid)
    (hlidb : ∀ l ∈ lsb, l.lid ≠ lid)
    (htr : st.triggers = []) :
    (Events.countInv lid (Events.emit (fb + 1) b (Events.emit (fa + 1) a
        (Events.runOp fuel st (.subscribe .all [a, b] ⟨lid, []⟩)))) =
       Events.countInv lid st + 1
     ∧ Events.countInv lid (Events.emit (fa + 1) a
        (Events.runOp fuel st (.subscribe .all [a, b] ⟨lid, []⟩))) =
       Events.countInv lid st
     ∧ (Events.emit (fb + 1) b (Events.emit (fa + 1) a
        (Events.runOp fuel st (.subscribe .all [a, b] ⟨lid, []⟩)))).triggers = []) ∧
    (Events.countInv lid (Events.emit (fa + 1) a (Events.emit (fb + 1) b
        (Events.runOp fuel st (.subscribe .all [a, b] ⟨lid, []⟩)))) =
       Events.countInv lid st + 1
     ∧ Events.countInv lid (Events.emit (fb + 1) b
        (Events.runOp fuel st (.subscribe .all [a, b] ⟨lid, []⟩))) =
       Events.countInv lid st) ∧
    (Events.countInv lid (Events.emit (fa + 1) a
        (Events.runOp fuel st (.subscribe .any [a, b] ⟨lid, []⟩))) =
       Events.countInv lid st + 1
     ∧ Events.countInv lid (Events.emit (fb + 1) b (Events.emit (fa + 1) a
        (Events.runOp fuel st (.subscribe .any [a, b] ⟨lid, []⟩)))) =
       Events.countInv lid st + 1) ∧
    (Events.countInv lid (Events.emit (fb + 1) b
        (Events.runOp fuel st (.subscribe .any [a, b] ⟨lid, []⟩))) =
       Events.countInv lid st + 1
     ∧ Events.countInv lid (Events.emit (fa + 1) a (Events.emit (fb + 1) b
        (Events.runOp fuel st (.subscribe .any [a, b] ⟨lid, []⟩)))) =
       Events.countInv lid st + 1) := by
  obtain ⟨E, T, L, S⟩ := st
  dsimp only at hgeta hgetb htr
  subst htr
  have hlida' : lid ∉ lsa.map (fun l => l.lid) := by
    intro hmem
    obtain ⟨x, hx, hxl⟩ := List.mem_map.mp hmem
    exact hlida x hx hxl
  have hlidb' : lid ∉ lsb.map (fun l => l.lid) := by
    intro hmem
    obtain ⟨x, hx, hxl⟩ := List.mem_map.mp hmem
    exact hlidb x hx hxl
  have hca : List.count (Events.LogEv.invoke lid)
      (Events.LogEv.emitting a :: lsa.map (fun l => Events.LogEv.invoke l.lid)) = 0 := by
    rw [List.count_cons_of_ne (by simp)]
    exact Events.count_invoke_map_zero hlida'
  have hcb : List.count (Events.LogEv.invoke lid)
      (Events.LogEv.emitting b :: lsb.map (fun l => Events.LogEv.invoke l.lid)) = 0 := by
    rw [List.count_cons_of_ne (by simp)]
    exact Events.count_invoke_map_zero hlidb'
  have hgetb1 : (Events.mapGet (Events.mapSet E a ⟨lsa, true⟩) b).getD ⟨[], false⟩
      = ⟨lsb, false⟩ := by
    rw [Events.mapGet_set_other _ _ _ _ (Ne.symm hab)]
    exact hgetb
  have hgeta1 : (Events.mapGet (Events.mapSet E b ⟨lsb, true⟩) a).getD ⟨[], false⟩
      = ⟨lsa, false⟩ := by
    rw [Events.mapGet_set_other _ _ _ _ hab]
    exact hgeta
  have hFa0 : ∀ (T' : List (String × Events.Trigger)) (L' : List Events.LogEv) (S' : Bool),
      Events.firedIn (⟨E, T', L', S'⟩ : Events.Bus) a = false := by
    intro T' L' S'
    rw [← Events.firedIn_getD]
    dsimp only
    rw [hgeta]
  have hFb0 : ∀ (T' : List (String × Events.Trigger)) (L' : List Events.LogEv) (S' : Bool),
      Events.firedIn (⟨E, T', L', S'⟩ : Events.Bus) b = false := by
    intro T' L' S'
    rw [← Events.firedIn_getD]
    dsimp only
    rw [hgetb]
  have hFa1 : ∀ (T' : List (String × Events.Trigger)) (L' : List Events.LogEv) (S' : Bool),
      Events.firedIn (⟨Events.mapSet E a ⟨lsa, true⟩, T', L', S'⟩ : Events.Bus) a = true := by
    intro T' L' S'
    rw [← Events.firedIn_getD]
    dsimp only
    rw [Events.mapGet_set_self]
    rfl
  have hFb1 : ∀ (T' : List (String × Events.Trigger)) (L' : List Events.LogEv) (S' : Bool),
      Events.firedIn (⟨Events.mapSet E a ⟨lsa, true⟩, T', L', S'⟩ : Events.Bus) b = false := by
    intro T' L' S'
    rw [← Events.firedIn_getD]
    dsimp only
    rw [Events.mapGet_set_other _ _ _ _ (Ne.symm hab), hgetb]
  have hGb1 : ∀ (T' : List (String × Events.Trigger)) (L' : List Events.LogEv) (S' : Bool),
      Events.firedIn (⟨Events.mapSet E b ⟨lsb, true⟩, T', L', S'⟩ : Events.Bus) b = true := by
    intro T' L' S'
    rw [← Events.firedIn_getD]
    dsimp only
    rw [Events.mapGet_set_self]
    rfl
  have hGa1 : ∀ (T' : List (String × Events.Trigger)) (L' : List Events.LogEv) (S' : Bool),
      Events.firedIn (⟨Events.mapSet E b ⟨lsb, true⟩, T', L', S'⟩ : Events.Bus) a = false := by
    intro T' L' S'
    rw [← Events.firedIn_getD]
    dsimp only
    rw [Events.mapGet_set_other _ _ _ _ hab, hgeta]
  have hFa2 : ∀ (T' : List (String × Events.Trigger)) (L' : List Events.LogEv) (S' : Bool),
      Events.firedIn (⟨Events.mapSet (Events.mapSet E a ⟨lsa, true⟩) b ⟨lsb, true⟩,
        T', L', S'⟩ : Events.Bus) a = true := by
    intro T' L' S'
    rw [← Events.firedIn_getD]
    dsimp only
    rw [Events.mapGet_set_other _ _ _ _ hab, Events.mapGet_set_self]
    rfl
  have hFb2 : ∀ (T' : List (String × Events.Trigger)) (L' : List Events.LogEv) (S' : Bool),
      Events.firedIn (⟨Events.mapSet (Events.mapSet E a ⟨lsa, true⟩) b ⟨lsb, true⟩,
        T', L', S'⟩ : Events.Bus) b = true := by
    intro T' L' S'
    rw [← Events.firedIn_getD]
    dsimp only
    rw [Events.mapGet_set_self]
    rfl
  have hGa2 : ∀ (T' : List (String × Events.Trigger)) (L' : List Events.LogEv) (S' : Bool),
      Events.firedIn (⟨Events.mapSet (Events.mapSet E b ⟨lsb, true⟩) a ⟨lsa, true⟩,
        T', L', S'⟩ : Events.Bus) a = true := by
    intro T' L' S'
    rw [← Events.firedIn_getD]
    dsimp only
    rw [Events.mapGet_set_self]
    rfl
  have hGb2 : ∀ (T' : List (String × Events.Trigger)) (L' : List Events.LogEv) (S' : Bool),
      Events.firedIn (⟨Events.mapSet (Events.mapSet E b ⟨lsb, true⟩) a ⟨lsa, true⟩,
        T', L', S'⟩ : Events.Bus) b = true := by
    intro T' L' S'
    rw [← Events.firedIn_getD]
    dsimp only
    rw [Events.mapGet_set_other _ _ _ _ (Ne.symm hab), Events.mapGet_set_self]
    rfl
  have hsubAll : Events.runOp fuel (⟨E, [], L, S⟩ : Events.Bus)
      (.subscribe .all [a, b] ⟨lid, []⟩) =
      ⟨E, [(Events.buildConditionalKey .all [a, b], ⟨.all, [a, b], ⟨lid, []⟩⟩)], L, S⟩ :=
    Events.subscribe_pending_all fuel [a, b] ⟨lid, []⟩ ⟨E, [], L, S⟩ rfl rfl (by
      unfold Events.evalCond
      dsimp only
      simp only [List.all_cons, List.all_nil, Bool.and_true]
      rw [hFa0]
      simp)
  have hsubAny : Events.runOp fuel (⟨E, [], L, S⟩ : Events.Bus)
      (.subscribe .any [a, b] ⟨lid, []⟩) =
      ⟨E, [(Events.buildConditionalKey .any [a, b], ⟨.any, [a, b], ⟨lid, []⟩⟩)], L, S⟩ :=
    Events.subscribe_pending_any fuel [a, b] ⟨lid, []⟩ ⟨E, [], L, S⟩ rfl rfl (by
      unfold Events.evalCond
      dsimp only
      simp only [List.any_cons, List.any_nil, Bool.or_false]
      rw [hFa0, hFb0]
      simp)
  have hA1 : Events.emit (fa + 1) a
      (⟨E, [(Events.buildConditionalKey .all [a, b], ⟨.all, [a, b], ⟨lid, []⟩⟩)], L, S⟩ :
        Events.Bus) =
      ⟨Events.mapSet E a ⟨lsa, true⟩,
       [(Events.buildConditionalKey .all [a, b], ⟨.all, [a, b], ⟨lid, []⟩⟩)],
       L ++ Events.LogEv.emitting a :: lsa.map (fun l => Events.LogEv.invoke l.lid), S⟩ := by
    rw [Events.emit_trigger_steps fa a _ lsa _ _ hgeta hina rfl rfl]
    split
    · rename_i hcond
      exfalso
      revert hcond
      dsimp only
      unfold Events.evalCond
      dsimp only
      simp only [List.all_cons, List.all_nil, Bool.and_true]
      rw [hFb1]
      simp
    · rfl
  have hA2 : Events.emit (fb + 1) b
      (⟨Events.mapSet E a ⟨lsa, true⟩,
        [(Events.buildConditionalKey .all [a, b], ⟨.all, [a, b], ⟨lid, []⟩⟩)],
        L ++ Events.LogEv.emitting a :: lsa.map (fun l => Events.LogEv.invoke l.lid), S⟩ :
          Events.Bus) =
      ⟨Events.mapSet (Events.mapSet E a ⟨lsa, true⟩) b ⟨lsb, true⟩, [],
        ((L ++ Events.LogEv.emitting a :: lsa.map (fun l => Events.LogEv.invoke l.lid))
          ++ Events.LogEv.emitting b :: lsb.map (fun l => Events.LogEv.invoke l.lid))
          ++ [Events.LogEv.invoke lid], S⟩ := by
    rw [Events.emit_trigger_steps fb b _ lsb _ _ hgetb1 hinb rfl rfl]
    split
    · rfl
    · rename_i hcond
      exfalso
      revert hcond
      dsimp only
      unfold Events.evalCond
      dsimp only
      simp only [List.all_cons, List.all_nil, Bool.and_true]
      rw [hFa2, hFb2]
      simp
  have hB1 : Events.emit (fb + 1) b
      (⟨E, [(Events.buildConditionalKey .all [a, b], ⟨.all, [a, b], ⟨lid, []⟩⟩)], L, S⟩ :
        Events.Bus) =
      ⟨Events.mapSet E b ⟨lsb, true⟩,
       [(Events.buildConditionalKey .all [a, b], ⟨.all, [a, b], ⟨lid, []⟩⟩)],
       L ++ Events.LogEv.emitting b :: lsb.map (fun l => Events.LogEv.invoke l.lid), S⟩ := by
    rw [Events.emit_trigger_steps fb b _ lsb _ _ hgetb hinb rfl rfl]
    split
    · rename_i hcond
      exfalso
      revert hcond
      dsimp only
      unfold Events.evalCond
      dsimp only
      simp only [List.all_cons, List.all_nil, Bool.and_true]
      rw [hGa1]
      simp
    · rfl
  have hB2 : Events.emit (fa + 1) a
      (⟨Events.mapSet E b ⟨lsb, true⟩,
        [(Events.buildConditionalKey .all [a, b], ⟨.all, [a, b], ⟨lid, []⟩⟩)],
        L ++ Events.LogEv.emitting b :: lsb.map (fun l => Events.LogEv.invoke l.lid), S⟩ :
          Events.Bus) =
      ⟨Events.mapSet (Events.mapSet E b ⟨lsb, true⟩) a ⟨lsa, true⟩, [],
        ((L ++ Events.LogEv.emitting b :: lsb.map (fun l => Events.LogEv.invoke l.lid))
          ++ Events.LogEv.emitting a :: lsa.map (fun l => Events.LogEv.invoke l.lid))
          ++ [Events.LogEv.invoke lid], S⟩ := by
    rw [Events.emit_trigger_steps fa a _ lsa _ _ hgeta1 hina rfl rfl]
    split
    · rfl
    · rename_i hcond
      exfalso
      revert hcond
      dsimp only
      unfold Events.evalCond
      dsimp only
      simp only [List.all_cons, List.all_nil, Bool.and_true]
      rw [hGa2, hGb2]
      simp
  have hC1 : Events.emit (fa + 1) a
      (⟨E, [(Events.buildConditionalKey .any [a, b], ⟨.any, [a, b], ⟨lid, []⟩⟩)], L, S⟩ :
        Events.Bus) =
      ⟨Events.mapSet E a ⟨lsa, true⟩, [],
       (L ++ Events.LogEv.emitting a :: lsa.map (fun l => Events.LogEv.invoke l.lid))
         ++ [Events.LogEv.invoke lid], S⟩ := by
    rw [Events.emit_trigger_steps fa a _ lsa _ _ hgeta hina rfl rfl]
    split
    · rfl
    · rename_i hcond
      exfalso
      revert hcond
      dsimp only
      unfold Events.evalCond
      dsimp only
      simp only [List.any_cons, List.any_nil, Bool.or_false]
      rw [hFa1]
      simp
  have hC2 : Events.emit (fb + 1) b
      (⟨Events.mapSet E a ⟨lsa, true⟩, [],
        (L ++ Events.LogEv.emitting a :: lsa.map (fun l => Events.LogEv.invoke l.lid))
          ++ [Events.LogEv.invoke lid], S⟩ : Events.Bus) =
      ⟨Events.mapSet (Events.mapSet E a ⟨lsa, true⟩) b ⟨lsb, true⟩, [],
        ((L ++ Events.LogEv.emitting a :: lsa.map (fun l => Events.LogEv.invoke l.lid))
          ++ [Events.LogEv.invoke lid])
          ++ Events.LogEv.emitting b :: lsb.map (fun l => Events.LogEv.invoke l.lid), S⟩ := by
    rw [Events.emit_step fb b _ lsb hgetb1 hinb]
    exact Events.checkTriggers_empty _ _ rfl
  have hD1 : Events.emit (fb + 1) b
      (⟨E, [(Events.buildConditionalKey .any [a, b], ⟨.any, [a, b], ⟨lid, []⟩⟩)], L, S⟩ :
        Events.Bus) =
      ⟨Events.mapSet E b ⟨lsb, true⟩, [],
       (L ++ Events.LogEv.emitting b :: lsb.map (fun l => Events.LogEv.invoke l.lid))
         ++ [Events.LogEv.invoke lid], S⟩ := by
    rw [Events.emit_trigger_steps fb b _ lsb _ _ hgetb hinb rfl rfl]
    split
    · rfl
    · rename_i hcond
      exfalso
      revert hcond
      dsimp only
      unfold Events.evalCond
      dsimp only
      simp only [List.any_cons, List.any_nil, Bool.or_false]
      rw [hGb1]
      simp
  have hD2 : Events.emit (fa + 1) a
      (⟨Events.mapSet E b ⟨lsb, true⟩, [],
        (L ++ Events.LogEv.emitting b :: lsb.map (fun l => Events.LogEv.invoke l.lid))
          ++ [Events.LogEv.invoke lid], S⟩ : Events.Bus) =
      ⟨Events.mapSet (Events.mapSet E b ⟨lsb, true⟩) a ⟨lsa, true⟩, [],
        ((L ++ Events.LogEv.emitting b :: lsb.map (fun l => Events.LogEv.invoke l.lid))
          ++ [Events.LogEv.invoke lid])
          ++ Events.LogEv.emitting a :: lsa.map (fun l => Events.LogEv.invoke l.lid), S⟩ := by
    rw [Events.emit_step fa a _ lsa hgeta1 hina]
    exact Events.checkTriggers_empty _ _ rfl
  refine ⟨⟨?_, ?_, ?_⟩, ⟨?_, ?_⟩, ⟨?_, ?_⟩, ⟨?_, ?_⟩⟩
  · rw [hsubAll, hA1, hA2]
    unfold Events.countInv
    dsimp only
    simp only [List.count_append, hca, hcb]
    simp
  · rw [hsubAll, hA1]
    unfold Events.countInv
    dsimp only
    simp only [List.count_append, hca]
    simp
  · rw [hsubAll, hA1, hA2]
  · rw [hsubAll, hB1, hB2]
    unfold Events.countInv
    dsimp only
    simp only [List.count_append, hca, hcb]
    simp
  · rw [hsubAll, hB1]
    unfold Events.countInv
    dsimp only
    simp only [List.count_append, hcb]
    simp
  · rw [hsubAny, hC1]
    unfold Events.countInv
    dsimp only
    simp only [List.count_append, hca]
    simp
  · rw [hsubAny, hC1, hC2]
    unfold Events.countInv
    dsimp only
    simp only [List.count_append, hca, hcb]
    simp
  · rw [hsubAny, hD1]
    unfold Events.countInv
    dsimp only
    simp only [List.count_append, hcb]
    simp
  · rw [hsubAny, hD1, hD2]
    unfold Events.countInv
    dsimp only
    simp only [List.count_append, hca, hcb]
    simp

/-- Witness for C4 at a concrete instance: distinct events a and b on the
empty bus, an all-trigger with listener identity 7, emitted a then b. -/
theorem c4_any_all_triggers_witness :
    ("a" : String) ≠ "b" ∧
    Events.countInv 7 (Events.emit (0 + 1) "b" (Events.emit (0 + 1) "a"
      (Events.runOp 0 Events.emptyBus (.subscribe .all ["a", "b"] ⟨7, []⟩)))) =
      Events.countInv 7 Events.emptyBus + 1 :=
  ⟨by decide, (c4_any_all_triggers 0 0 0 "a" "b" (by decide) 7 Events.emptyBus [] []
      rfl rfl (by decide) (by decide) (by decide) (by decide) rfl).1.1⟩

namespace Events

theorem mapSet_single_same {α : Type} (k : String) (t1 t2 : α) :
    mapSet [(k, t1)] k t2 = [(k, t2)] := by
  unfold mapSet
  simp [List.find?]

end Events

/-- C6: subscribing twice with the same condition kind and an event set that
builds the same conditional key does NOT keep two independent trigger
entries: Map.set overwrites in place, so only the second listener's trigger
remains pending (amended statement; the claim's both-listeners-fire reading
is refuted by c6_counterexample). -/
theorem c6_same_key_second_wins (fuel1 fuel2 : Nat) (c : Events.Cond)
    (hc : c ≠ .single) (evs1 evs2 : List String) (l1 l2 : Events.Listener)
    (st : Events.Bus) (htr : st.triggers = [])
    (hl1 : l1.emits = []) (hl2 : l2.emits = [])
    (hkey : Events.buildConditionalKey c evs1 = Events.buildConditionalKey c evs2)
    (hcond1 : Events.evalCond c evs1 st = false)
    (hcond2 : Events.evalCond c evs2 st = false) :
    Events.runOp fuel2 (Events.runOp fuel1 st (.subscribe c evs1 l1))
        (.subscribe c evs2 l2) =
      { st with triggers :=
          [(Events.buildConditionalKey c evs2, ⟨c, evs2, l2⟩)] } := by
  cases c with
  | single => exact absurd rfl hc
  | any =>
    rw [Events.subscribe_pending_any fuel1 evs1 l1 st htr hl1 hcond1]
    unfold Events.runOp Events.onTrigger
    dsimp only
    rw [← hkey]
    rw [Events.mapSet_single_same]
    rw [Events.checkTriggers_single (fun e' s => Events.emit fuel2 e' s) _ _ _ rfl hl2]
    rw [if_neg (by
      dsimp only
      rw [Events.evalCond_set_triggers, Events.evalCond_set_triggers]
      simp [hcond2])]
  | all =>
    rw [Events.subscribe_pending_all fuel1 evs1 l1 st htr hl1 hcond1]
    unfold Events.runOp Events.onTrigger
    dsimp only
    rw [← hkey]
    rw [Events.mapSet_single_same]
    rw [Events.checkTriggers_single (fun e' s => Events.emit fuel2 e' s) _ _ _ rfl hl2]
    rw [if_neg (by
      dsimp only
      rw [Events.evalCond_set_triggers, Events.evalCond_set_triggers]
      simp [hcond2])]

/-- Counterexample to C6 as stated: two all-triggers registered over the same
event set; after both events fire, only the second listener (identity 2) has
run, the first (identity 1) never fires. -/
theorem c6_counterexample :
    Events.countInv 1 (Events.runOps 1
      [.subscribe .all ["a", "b"] ⟨1, []⟩, .subscribe .all ["a", "b"] ⟨2, []⟩,
       .emitEv "a", .emitEv "b"] Events.emptyBus) = 0 ∧
    Events.countInv 2 (Events.runOps 1
      [.subscribe .all ["a", "b"] ⟨1, []⟩, .subscribe .all ["a", "b"] ⟨2, []⟩,
       .emitEv "a", .emitEv "b"] Events.emptyBus) = 1 := by
  decide

/-- Witness for C6's amended statement: two all-subscriptions over the same
sorted event set on the empty bus collapse to the second trigger entry. -/
theorem c6_same_key_second_wins_witness :
    (Events.Cond.all ≠ .single) ∧
    Events.runOp 0 (Events.runOp 0 Events.emptyBus
        (.subscribe .all ["b", "a"] ⟨1, []⟩)) (.subscribe .all ["a", "b"] ⟨2, []⟩) =
      { Events.emptyBus with triggers :=
          [(Events.buildConditionalKey .all ["a", "b"], ⟨.all, ["a", "b"], ⟨2, []⟩⟩)] } :=
  ⟨by decide, c6_same_key_second_wins 0 0 .all (by decide) ["b", "a"] ["a", "b"]
    ⟨1, []⟩ ⟨2, []⟩ Events.emptyBus rfl rfl rfl (by decide) (by decide) (by decide)⟩

namespace Events

theorem count_invoke_one_ne {lid m : Nat} (h : m ≠ lid) :
    List.count (LogEv.invoke lid) [LogEv.invoke m] = 0 := by
  rw [List.count_cons_of_ne (fun heq => h (LogEv.invoke.inj heq).symm), List.count_nil]

theorem count_invoke_skipped {lid : Nat} {e : String} :
    List.count (LogEv.invoke lid) [LogEv.skipped e] = 0 := by
  rw [List.count_cons_of_ne (fun heq => LogEv.noConfusion heq), List.count_nil]

theorem count_invoke_emitting {lid : Nat} {e : String} :
    List.count (LogEv.invoke lid) [LogEv.emitting e] = 0 := by
  rw [List.count_cons_of_ne (fun heq => LogEv.noConfusion heq), List.count_nil]

theorem runEmits_safe {lid : Nat} {emitL : String → Bus → Bus} (hEM : SafeEmit lid emitL) :
    ∀ (es : List String) (st : Bus), SafeLid lid st →
      SafeLid lid (runEmits emitL es st) ∧
        countInv lid (runEmits emitL es st) = countInv lid st
  | [], _, h => ⟨h, rfl⟩
  | e :: es, st, h => by
    have h1 := hEM e st h
    have h2 := runEmits_safe hEM es (emitL e st) h1.1
    exact ⟨h2.1, h2.2.trans h1.2⟩

theorem fireListener_safe {lid : Nat} {emitL : String → Bus → Bus} (hEM : SafeEmit lid emitL)
    {l : Listener} (hne : l.lid ≠ lid) (st : Bus) (h : SafeLid lid st) :
    SafeLid lid (fireListener emitL l st) ∧
      countInv lid (fireListener emitL l st) = countInv lid st := by
  unfold fireListener
  have hmid : SafeLid lid { st with log := st.log ++ [LogEv.invoke l.lid] } := h
  have h2 := runEmits_safe hEM l.emits _ hmid
  refine ⟨h2.1, ?_⟩
  rw [h2.2]
  unfold countInv
  dsimp only
  rw [List.count_append, count_invoke_one_ne hne]
  omega

theorem runListeners_safe {lid : Nat} {emitL : String → Bus → Bus} (hEM : SafeEmit lid emitL) :
    ∀ (ls : List Listener), (∀ l ∈ ls, l.lid ≠ lid) → ∀ (st : Bus), SafeLid lid st →
      SafeLid lid (runListeners emitL ls st) ∧
        countInv lid (runListeners emitL ls st) = countInv lid st
  | [], _, _, h => ⟨h, rfl⟩
  | l :: ls, hls, st, h => by
    have h1 := fireListener_safe hEM (hls l (by simp)) st h
    have h2 := runListeners_safe hEM ls (fun x hx => hls x (by simp [hx])) _ h1.1
    exact ⟨h2.1, h2.2.trans h1.2⟩

theorem checkKeys_safe {lid : Nat} {emitL : String → Bus → Bus} (hEM : SafeEmit lid emitL) :
    ∀ (ks : List String) (st : Bus), SafeLid lid st →
      SafeLid lid (checkKeys emitL ks st) ∧
        countInv lid (checkKeys emitL ks st) = countInv lid st
  | [], _, h => ⟨h, rfl⟩
  | k :: ks, st, h => by
    unfold checkKeys
    cases hget : mapGet st.triggers k with
    | none =>
      dsimp only
      exact checkKeys_safe hEM ks st h
    | some t =>
      dsimp only
      by_cases hc : evalCond t.cond t.events st = true
      · rw [if_pos hc]
        have hne : t.listener.lid ≠ lid := by
          intro heq
          obtain ⟨kv, hkv, hk1, hk2⟩ := mapGet_mem hget
          have hany := h.2 kv hkv (by rw [hk2]; exact heq)
          rw [hk2] at hany
          rw [hany.1, hany.2] at hc
          exact absurd hc (by simp [evalCond])
        have h1 := fireListener_safe hEM hne st h
        have hdel : SafeLid lid
            { fireListener emitL t.listener st with
              triggers := mapDelete (fireListener emitL t.listener st).triggers k } := by
          refine ⟨h1.1.1, ?_⟩
          intro kv hkv
          exact h1.1.2 kv (mem_mapDelete hkv)
        have h2 := checkKeys_safe hEM ks _ hdel
        exact ⟨h2.1, h2.2.trans h1.2⟩
      · rw [if_neg hc]
        exact checkKeys_safe hEM ks st h

theorem checkTriggers_safe {lid : Nat} {emitL : String → Bus → Bus}
    (hEM : SafeEmit lid emitL) (st : Bus) (h : SafeLid lid st) :
    SafeLid lid (checkTriggers emitL st) ∧
      countInv lid (checkTriggers emitL st) = countInv lid st :=
  checkKeys_safe hEM _ st h

theorem emit_safe (lid : Nat) : ∀ (fuel : Nat) (e : String) (st : Bus), SafeLid lid st →
    SafeLid lid (emit fuel e st) ∧ countInv lid (emit fuel e st) = countInv lid st
  | 0, _, _, h => ⟨h, rfl⟩
  | fuel + 1, e, st, h => by
    have hEM : SafeEmit lid (fun e' s => emit fuel e' s) :=
      fun e' s hs => emit_safe lid fuel e' s hs
    by_cases hf : ((mapGet st.events e).getD ⟨[], false⟩).fired = true
    · simp only [emit]
      rw [if_pos hf]
      refine ⟨h, ?_⟩
      unfold countInv
      dsimp only
      rw [List.count_append, count_invoke_skipped]
      omega
    · simp only [emit]
      rw [if_neg hf]
      have hls : ∀ l ∈ ((mapGet st.events e).getD ⟨[], false⟩).listeners, l.lid ≠ lid := by
        cases hg : mapGet st.events e with
        | none =>
          intro l hl
          exact absurd hl (by simp)
        | some r =>
          intro l hl
          obtain ⟨kv, hkv, hk1, hk2⟩ := mapGet_mem hg
          rcases h.1 kv hkv with hnone | hfired
          · refine hnone l ?_
            rw [hk2]
            exact hl
          · exfalso
            apply hf
            rw [hg]
            rw [← hk2]
            exact hfired
      have h1 : SafeLid lid { st with log := st.log ++ [LogEv.emitting e] } := h
      have h2 := runListeners_safe hEM _ hls _ h1
      have h3 : SafeLid lid { runListeners (fun e' s => emit fuel e' s)
          ((mapGet st.events e).getD ⟨[], false⟩).listeners
          { st with log := st.log ++ [LogEv.emitting e] } with
        events := mapSet (runListeners (fun e' s => emit fuel e' s)
          ((mapGet st.events e).getD ⟨[], false⟩).listeners
          { st with log := st.log ++ [LogEv.emitting e] }).events e
          ⟨((mapGet st.events e).getD ⟨[], false⟩).listeners, true⟩ } := by
        refine ⟨?_, h2.1.2⟩
        intro kv hkv
        rcases mem_mapSet hkv with heq | hmem
        · right
          rw [heq]
        · exact h2.1.1 kv hmem
      have h4 := checkTriggers_safe hEM _ h3
      refine ⟨h4.1, ?_⟩
      have h5 : countInv lid { st with log := st.log ++ [LogEv.emitting e] } =
          countInv lid st := by
        unfold countInv
        dsimp only
        rw [List.count_append, count_invoke_emitting]
        omega
      exact h4.2.trans (h2.2.trans h5)

end Events

namespace Events

theorem runOp_safe {lid : Nat} (fuel : Nat) (op : BusOp) (st : Bus)
    (hop : opLid op ≠ some lid) (h : SafeLid lid st) :
    SafeLid lid (runOp fuel st op) ∧
      countInv lid (runOp fuel st op) = countInv lid st := by
  have hEM : SafeEmit lid (fun e' s => emit fuel e' s) :=
    fun e' s hs => emit_safe lid fuel e' s hs
  cases op with
  | emitEv e => exact emit_safe lid fuel e st h
  | subscribe c evs l =>
    have hne : l.lid ≠ lid := by
      intro heq
      exact hop (by rw [opLid, heq])
    cases c with
    | single =>
      cases evs with
      | nil => exact ⟨h, rfl⟩
      | cons e rest =>
        cases rest with
        | cons e2 r2 => exact ⟨h, rfl⟩
        | nil =>
          unfold runOp onTrigger
          dsimp only
          have hdisj : (∀ l' ∈ ((mapGet st.events e).getD ⟨[], false⟩).listeners ++ [l],
              l'.lid ≠ lid) ∨ ((mapGet st.events e).getD ⟨[], false⟩).fired = true := by
            cases hg : mapGet st.events e with
            | none =>
              left
              intro l' hl'
              have hll : l' = l := by simpa using hl'
              rw [hll]
              exact hne
            | some r =>
              obtain ⟨kv, hkv, hk1, hk2⟩ := mapGet_mem hg
              rcases h.1 kv hkv with hleft | hright
              · left
                intro l' hl'
                rcases List.mem_append.mp hl' with hin | hin
                · refine hleft l' ?_
                  rw [hk2]
                  exact hin
                · have hll : l' = l := by simpa using hin
                  rw [hll]
                  exact hne
              · right
                rw [← hk2]
                exact hright
          have h1 : SafeLid lid
              { st with
                events := mapSet st.events e
                  ⟨((mapGet st.events e).getD ⟨[], false⟩).listeners ++ [l],
                    ((mapGet st.events e).getD ⟨[], false⟩).fired⟩ } := by
            refine ⟨?_, h.2⟩
            intro kv hkv
            rcases mem_mapSet hkv with heq | hmem
            · rcases hdisj with hdl | hdr
              · left
                rw [heq]
                exact hdl
              · right
                rw [heq]
                exact hdr
            · exact h.1 kv hmem
          have h4 := checkTriggers_safe hEM _ h1
          exact ⟨h4.1, h4.2.trans rfl⟩
    | any =>
      unfold runOp onTrigger
      dsimp only
      have h1 : SafeLid lid
          { st with
            triggers := mapSet st.triggers (buildConditionalKey .any evs) ⟨.any, evs, l⟩ } := by
        refine ⟨h.1, ?_⟩
        intro kv hkv heq
        rcases mem_mapSet hkv with hkeq | hmem
        · rw [hkeq] at heq
          exact absurd heq hne
        · exact h.2 kv hmem heq
      have h4 := checkTriggers_safe hEM _ h1
      exact ⟨h4.1, h4.2.trans rfl⟩
    | all =>
      unfold runOp onTrigger
      dsimp only
      have h1 : SafeLid lid
          { st with
            triggers := mapSet st.triggers (buildConditionalKey .all evs) ⟨.all, evs, l⟩ } := by
        refine ⟨h.1, ?_⟩
        intro kv hkv heq
        rcases mem_mapSet hkv with hkeq | hmem
        · rw [hkeq] at heq
          exact absurd heq hne
        · exact h.2 kv hmem heq
      have h4 := checkTriggers_safe hEM _ h1
      exact ⟨h4.1, h4.2.trans rfl⟩

theorem runOps_safe {lid : Nat} (fuel : Nat) :
    ∀ (ops : List BusOp) (st : Bus), (∀ op ∈ ops, opLid op ≠ some lid) →
      SafeLid lid st →
      SafeLid lid (runOps fuel ops st) ∧
        countInv lid (runOps fuel ops st) = countInv lid st
  | [], _, _, h => ⟨h, rfl⟩
  | op :: ops, st, hops, h => by
    have h1 := runOp_safe fuel op st (hops op (by simp)) h
    have h2 := runOps_safe fuel ops _ (fun o ho => hops o (by simp [ho])) h1.1
    exact ⟨h2.1, h2.2.trans h1.2⟩

end Events

/-- C9: a listener subscribed with a single condition to an event that has
already fired is never invoked: the subscribe call does not invoke it
synchronously, and no later sequence of bus operations (none of which
re-subscribes the same listener identity) ever adds an invocation of it to
the log — its invocation count never changes. -/
theorem c9_single_on_fired_never_runs (fuel fuel2 : Nat) (x : String)
    (l : Events.Listener) (st : Events.Bus) (ops : List Events.BusOp)
    (hfired : Events.firedIn st x = true)
    (hsafe : Events.SafeLid l.lid st)
    (hops : ∀ op ∈ ops, Events.opLid op ≠ some l.lid) :
    Events.countInv l.lid (Events.runOps fuel2 ops
        (Events.runOp fuel st (.subscribe .single [x] l))) =
      Events.countInv l.lid st := by
  have hEM : Events.SafeEmit l.lid (fun e' s => Events.emit fuel e' s) :=
    fun e' s hs => Events.emit_safe l.lid fuel e' s hs
  have htf : ((Events.mapGet st.events x).getD ⟨[], false⟩).fired = true := by
    rw [Events.firedIn_getD]
    exact hfired
  have h1 : Events.SafeLid l.lid
      { st with
        events := Events.mapSet st.events x
          ⟨((Events.mapGet st.events x).getD ⟨[], false⟩).listeners ++ [l],
            ((Events.mapGet st.events x).getD ⟨[], false⟩).fired⟩ } := by
    refine ⟨?_, hsafe.2⟩
    intro kv hkv
    rcases Events.mem_mapSet hkv with heq | hmem
    · right
      rw [heq]
      exact htf
    · exact hsafe.1 kv hmem
  have h4 := Events.checkTriggers_safe hEM _ h1
  have hsub : Events.SafeLid l.lid (Events.runOp fuel st (.subscribe .single [x] l)) ∧
      Events.countInv l.lid (Events.runOp fuel st (.subscribe .single [x] l)) =
        Events.countInv l.lid st := by
    unfold Events.runOp Events.onTrigger
    dsimp only
    exact ⟨h4.1, h4.2.trans rfl⟩
  have h2 := Events.runOps_safe fuel2 ops _ hops hsub.1
  exact h2.2.trans hsub.2

/-- Witness for C9: the event x is already fired, listener identity 5
subscribes to it with a single condition, x and y are then emitted; identity
5 is never invoked. -/
theorem c9_single_on_fired_never_runs_witness :
    Events.firedIn ⟨[("x", ⟨[], true⟩)], [], [], false⟩ "x" = true ∧
    Events.countInv 5 (Events.runOps 1 [.emitEv "x", .emitEv "y"]
        (Events.runOp 1 (⟨[("x", ⟨[], true⟩)], [], [], false⟩ : Events.Bus)
          (.subscribe .single ["x"] ⟨5, []⟩))) =
      Events.countInv 5 (⟨[("x", ⟨[], true⟩)], [], [], false⟩ : Events.Bus) :=
  ⟨by decide, c9_single_on_fired_never_runs 1 1 "x" ⟨5, []⟩
    (⟨[("x", ⟨[], true⟩)], [], [], false⟩ : Events.Bus) [.emitEv "x", .emitEv "y"]
    (by decide) (by unfold Events.SafeLid; decide) (by decide)⟩

/-- C10: subscribing an all-trigger over an empty watched-event set invokes
its listener synchronously during the subscribe call and leaves no trigger
stored, while a listener subscribed as an any-trigger over an empty set is
never invoked by any later sequence of bus operations. -/
theorem c10_empty_condition_sets (fuel fuel2 : Nat) (st : Events.Bus)
    (l : Events.Listener) (ops : List Events.BusOp)
    (htr : st.triggers = []) (hl : l.emits = [])
    (hsafe : ∀ kv ∈ st.events, (∀ l' ∈ kv.2.listeners, l'.lid ≠ l.lid) ∨
      kv.2.fired = true)
    (hops : ∀ op ∈ ops, Events.opLid op ≠ some l.lid) :
    (Events.runOp fuel st (.subscribe .all [] l) =
      { st with
        triggers := [],
        log := st.log ++ [Events.LogEv.invoke l.lid] }) ∧
    (Events.countInv l.lid (Events.runOps fuel2 ops
        (Events.runOp fuel st (.subscribe .any [] l))) =
      Events.countInv l.lid st) := by
  constructor
  · unfold Events.runOp Events.onTrigger
    dsimp only
    rw [htr, Events.mapSet_nil]
    rw [Events.checkTriggers_single (fun e' s => Events.emit fuel e' s) _ _ _ rfl hl]
    split
    · rfl
    · rename_i hcond
      exact absurd rfl hcond
  · have hsub : Events.runOp fuel st (.subscribe .any [] l) =
        { st with triggers :=
            [(Events.buildConditionalKey .any [], ⟨.any, [], l⟩)] } :=
      Events.subscribe_pending_any fuel [] l st htr hl rfl
    rw [hsub]
    have h1 : Events.SafeLid l.lid
        { st with triggers :=
            [(Events.buildConditionalKey .any [], ⟨.any, [], l⟩)] } := by
      refine ⟨hsafe, ?_⟩
      intro kv hkv _
      have hkveq : kv = (Events.buildConditionalKey .any [], ⟨.any, [], l⟩) := by
        simpa using hkv
      rw [hkveq]
      exact ⟨rfl, rfl⟩
    have h2 := Events.runOps_safe fuel2 ops _ hops h1
    exact h2.2.trans rfl

/-- Witness for C10: listener identity 3 on the empty bus; the all-[]
subscription invokes it at once; the any-[] subscription never does, even
after an emission. -/
theorem c10_empty_condition_sets_witness :
    (Events.runOp 1 Events.emptyBus (.subscribe .all [] (⟨3, []⟩ : Events.Listener)) =
      { Events.emptyBus with
        triggers := [],
        log := Events.emptyBus.log ++ [Events.LogEv.invoke 3] }) ∧
    (Events.countInv 3 (Events.runOps 1 [.emitEv "a"]
        (Events.runOp 1 Events.emptyBus (.subscribe .any [] (⟨3, []⟩ : Events.Listener)))) =
      Events.countInv 3 Events.emptyBus) :=
  c10_empty_condition_sets 1 1 Events.emptyBus ⟨3, []⟩ [.emitEv "a"]
    rfl rfl (by decide) (by decide)
